import Mathlib

/-
  Verification of the Brancher variable-graph engine (brancher/variables.py).

  Shallow embedding:
  * Python object identity is modelled by node ids (`Nat`); a `Graph` holds
    the static structure (kind, name, parent edges) and a `GState` holds the
    mutable per-node cache (`samples`, `_evaluated`, `_current_value`) and
    observation state (`_observed`, `_observed_value`, `dataset`,
    `has_random_dataset`, `has_observed_value`).
  * The DAG property is represented by a topological numbering: every parent
    id is strictly smaller than its child id (`parentsWf`).  Recursion over
    the graph is written with an explicit fuel argument; fuel larger than the
    node id always suffices, and running out of fuel yields `none`.
  * The external collaborators (the distribution capability, the link
    function together with the `_apply_link` broadcasting machinery from
    brancher.utilities, `tile_parameter`, `F.mean`) are not part of
    variables.py; they are abstracted as an `Env` of pure functions, so that
    `distribution.get_sample` is `Env.draw`, `distribution.calculate_log_probability`
    composed with `_apply_link` is `Env.logp`, the observed-mode
    `F.sum(..., axis=1)` is `Env.sumData`, `tile_parameter` is `Env.tile`
    and `F.mean` is `Env.fmean`.
  * Tensor values versus opaque/discrete values (the
    `isinstance(value, chainer.Variable)` checks) are modelled by the two
    constructors of `Val`.
  * A Python sampling call that would raise (the `assert` in
    `DeterministicVariable.value`) is modelled by an `Option` result.
-/

namespace Brancher

/-- A runtime value: either a tensor (a `chainer.Variable` in the source) or
an opaque/discrete value that is passed through the engine unchanged. -/
inductive Val where
  | tensor (data : Int)
  | discrete (data : Int)
deriving DecidableEq, Repr

/-- A name-keyed (here: id-keyed) partial assignment of values, standing for
the Python dictionaries `input_values` / sample dictionaries. -/
abbrev Assignment := Nat → Option Val

/-- The two concrete node classes of variables.py. -/
inductive VKind where
  | deterministic
  | random
deriving DecidableEq, Repr

/-- The mutable per-node fields of a variable: the evaluation cache
(`samples`, `_evaluated`, `_current_value`) and the observation state
(`_observed`, `_observed_value`, `dataset`, `has_random_dataset`,
`has_observed_value`).  Deterministic variables only use `currentValue` and
`observed`. -/
structure NodeState where
  samples : List Val
  evaluated : Bool
  currentValue : Option Val
  observed : Bool
  observedValue : Option Val
  dataset : Option Nat
  hasRandomDataset : Bool
  hasObservedValue : Bool
deriving DecidableEq, Repr

/-- The global mutable state: one `NodeState` per node id. -/
abbrev GState := Nat → NodeState

/-- The static variable graph.  `parentsWf` encodes acyclicity through a
topological numbering, and `detNoParents` records that
`DeterministicVariable.__init__` always sets `self.parents = ()`. -/
structure Graph where
  kind : Nat → VKind
  vname : Nat → String
  parents : Nat → List Nat
  parentsWf : ∀ i p, p ∈ parents i → p < i
  detNoParents : ∀ i, kind i = VKind.deterministic → parents i = []

/-- External capabilities consumed by variables.py (distribution sampling and
log-density, the link/broadcast machinery, tiling, mean). -/
structure Env where
  logp : Nat → Option Val → (Nat → Option Val) → Int
  sumData : Int → Int
  draw : Nat → (Nat → Option Val) → Nat → Val
  tile : Val → Nat → Val
  fmean : Int → Int

/-- A fresh, fully cleared node state. -/
def blankNS : NodeState :=
  { samples := [], evaluated := false, currentValue := none, observed := false,
    observedValue := none, dataset := none, hasRandomDataset := false,
    hasObservedValue := false }

/-- Set the `_evaluated` flag of node `i` (line `self._evaluated = True`). -/
def setEvaluated (s : GState) (i : Nat) : GState :=
  fun j => if j = i then { s j with evaluated := true } else s j

/-- Append a draw to node `i`'s sample stack (`self.samples.append(sample)`). -/
def pushSample (s : GState) (i : Nat) (v : Val) : GState :=
  fun j => if j = i then { s j with samples := (s j).samples ++ [v] } else s j

/-- Clear the evaluation cache of one node state, as `RandomVariable.reset`
does on `self`. -/
def clearNS (ns : NodeState) : NodeState :=
  { ns with samples := [], evaluated := false, currentValue := none }

/-- The singleton dictionary `{self: value}`. -/
def single (i : Nat) (v : Val) : Assignment := fun j => if j = i then some v else none

/-- The empty dictionary. -/
def emptyAssignment : Assignment := fun _ => none

/-- Dictionary union where the second dictionary wins on shared keys, as in
`{**d, **d2}` / `dict.update`. -/
def aunion (d d2 : Assignment) : Assignment :=
  fun k => match d2 k with
    | some v => some v
    | none => d k

/-- The `value` property of `RandomVariable`: the observed value while
`_observed` is set, else `_current_value`. -/
def rvValue (s : GState) (i : Nat) : Option Val :=
  if (s i).observed then (s i).observedValue else (s i).currentValue

/-- The dictionary comprehension
`{parent: parent.value for parent in self.parents if type(parent) is DeterministicVariable}`.
`DeterministicVariable.value` asserts that `_current_value` is present, so a
missing value aborts the call (`none`). -/
def detParentVals (g : Graph) (s : GState) : List Nat → Option (List (Nat × Val))
  | [] => some []
  | p :: rest =>
    if g.kind p = VKind.deterministic then
      match (s p).currentValue with
      | none => none
      | some v =>
        match detParentVals g s rest with
        | none => none
        | some l => some ((p, v) :: l)
    else detParentVals g s rest

/-- Sequential evaluation of `sum([f(var) for var in vars])`: the Python list
comprehension runs left to right through the shared mutable state. -/
def clpList (f : Nat → GState → Option (Int × GState)) :
    List Nat → GState → Option (Int × GState)
  | [], s => some (0, s)
  | p :: rest, s =>
    match f p s with
    | none => none
    | some (r, s1) =>
      match clpList f rest s1 with
      | none => none
      | some (r2, s2) => some (r + r2, s2)

/-- `Variable.calculate_log_probability` (variables.py lines 263-279 and
375-411), by cases on the node class.  A deterministic variable returns `0.`
unconditionally.  A random variable returns `0.` when `_evaluated` is set and
`reevaluate` is false; otherwise it scores the bound or current value, marks
itself evaluated, gathers deterministic parents' values merged over the bound
parent values (`{**parents_input_values, **deterministic_parents_values}`),
computes its own density via the abstracted link/distribution, recursively
accumulates its parents, collapses the data axis when observed, and returns
the sum. -/
def clp (g : Graph) (env : Env) (vals : Assignment) (reev : Bool) :
    Nat → Nat → GState → Option (Int × GState)
  | 0, _, _ => none
  | fuel + 1, i, s =>
    if g.kind i = VKind.deterministic then some (0, s)
    else
      if (s i).evaluated = true ∧ reev = false then some (0, s)
      else
        let value : Option Val :=
          match vals i with
          | some v => some v
          | none => rvValue s i
        let s1 := setEvaluated s i
        match detParentVals g s1 (g.parents i) with
        | none => none
        | some detl =>
          let pvals : Nat → Option Val := fun p =>
            if p ∈ g.parents i then
              (if g.kind p = VKind.deterministic then List.lookup p detl else vals p)
            else none
          let own := env.logp i value pvals
          match clpList (fun p s' => clp g env vals reev fuel p s') (g.parents i) s1 with
          | none => none
          | some (psum, s2) =>
            let own2 := if (s2 i).observed then env.sumData own else own
            some (own2 + psum, s2)

/-- Sequential evaluation of
`join_dicts_list([parent._get_sample(...) for parent in parents])`:
the comprehension runs left to right through the shared state and the
dictionaries are merged (later entries win).  The third component is an
instrumentation trace recording, in order, the node whose distribution's
`get_sample` was invoked at each draw. -/
def runList (f : Nat → GState → Option (Assignment × GState × List Nat)) :
    List Nat → GState → Option (Assignment × GState × List Nat)
  | [], s => some (emptyAssignment, s, [])
  | p :: rest, s =>
    match f p s with
    | none => none
    | some (d, s1, t) =>
      match runList f rest s1 with
      | none => none
      | some (d2, s2, t2) => some (aunion d d2, s2, t ++ t2)

/-- The tail of `RandomVariable._get_sample` shared by the fall-through
branches (variables.py lines 431-437): sample every parent of
`var_to_sample` (node `j`), apply its link, draw from its distribution,
append the draw to `self.samples` (node `i`) and return the union
`{**parents_samples_dict, self: sample}`. -/
def sampleMain (g : Graph) (env : Env) (n : Nat)
    (rec : Nat → GState → Option (Assignment × GState × List Nat))
    (i j : Nat) (s : GState) : Option (Assignment × GState × List Nat) :=
  match runList rec (g.parents j) s with
  | none => none
  | some (pd, s1, t) =>
    let inputDict : Nat → Option Val := fun p => if p ∈ g.parents j then pd p else none
    let sample := env.draw j inputDict n
    let s2 := pushSample s1 i sample
    some (fun k => if k = i then some sample else pd k, s2, t ++ [j])

/-- `Variable._get_sample` (variables.py lines 296-307 and 413-437), by cases
on the node class.  A deterministic variable returns its bound or stored
value, tiled when it is a tensor.  A random variable first serves the cached
draw when one exists and `resample` is false; otherwise, outside observed
mode it short-circuits on a bound input value and else samples itself, and in
observed mode it returns the fixed observed value, or samples through its
random `dataset` variable, or falls through to its own distribution. -/
def sampleNode (g : Graph) (env : Env) (n : Nat) (resample observed : Bool)
    (vals : Assignment) :
    Nat → Nat → GState → Option (Assignment × GState × List Nat)
  | 0, _, _ => none
  | fuel + 1, i, s =>
    if g.kind i = VKind.deterministic then
      match (match vals i with | some v => some v | none => (s i).currentValue) with
      | none => none
      | some v =>
        match v with
        | Val.tensor d => some (single i (env.tile (Val.tensor d) n), s, [])
        | Val.discrete d => some (single i (Val.discrete d), s, [])
    else
      match resample, (s i).samples.getLast? with
      | false, some v => some (single i v, s, [])
      | _, _ =>
        if observed = false then
          match vals i with
          | some v => some (single i v, s, [])
          | none =>
            sampleMain g env n
              (fun p s' => sampleNode g env n resample observed vals fuel p s') i i s
        else
          if (s i).hasObservedValue = true then
            match (s i).observedValue with
            | some v => some (single i v, s, [])
            | none => none
          else if (s i).hasRandomDataset = true then
            match (s i).dataset with
            | some d =>
              sampleMain g env n
                (fun p s' => sampleNode g env n resample observed vals fuel p s') i d s
            | none => none
          else
            sampleMain g env n
              (fun p s' => sampleNode g env n resample observed vals fuel p s') i i s

/-- `Variable.reset` / `RandomVariable.reset` (variables.py lines 309-310 and
459-467): deterministic nodes hold no cache; a random node clears its own
`samples`, `_evaluated` and `_current_value` and then resets every parent. -/
def resetList (f : Nat → GState → GState) : List Nat → GState → GState
  | [], s => s
  | p :: rest, s => resetList f rest (f p s)

/-- Per-node `reset` with fuel (fuel above the node id always suffices). -/
def resetNode (g : Graph) : Nat → Nat → GState → GState
  | 0, _, s => s
  | fuel + 1, i, s =>
    if g.kind i = VKind.deterministic then s
    else
      resetList (fun p s' => resetNode g fuel p s') (g.parents i)
        (fun j => if j = i then clearNS (s j) else s j)

/-- `ProbabilisticModel.reset`: reset every declared root variable. -/
def modelReset (g : Graph) (fuel : Nat) (roots : List Nat) (s : GState) : GState :=
  resetList (fun r s' => resetNode g fuel r s') roots s

/-- `ProbabilisticModel.calculate_log_probability` (variables.py lines
549-555): sum the roots' log-probabilities with `reevaluate=False`, then
issue a full `reset` and return the total. -/
def modelCLP (g : Graph) (env : Env) (roots : List Nat) (vals : Assignment)
    (fuel : Nat) (s : GState) : Option (Int × GState) :=
  match clpList (fun i s' => clp g env vals false fuel i s') roots s with
  | none => none
  | some (total, s1) => some (total, modelReset g fuel roots s1)

/-- `ProbabilisticModel._get_sample` (variables.py lines 557-566): sample
every root with `resample=False`, merge in the externally supplied input
values (`joint_sample.update(input_values)`), reset, and return the joint
sample.  The trace is kept for instrumentation. -/
def modelGetSample (g : Graph) (env : Env) (roots : List Nat) (n : Nat)
    (observed : Bool) (vals : Assignment) (fuel : Nat) (s : GState) :
    Option (Assignment × GState × List Nat) :=
  match runList (fun i s' => sampleNode g env n false observed vals fuel i s') roots s with
  | none => none
  | some (d, s1, t) =>
    let d2 : Assignment := fun k => match vals k with
      | some v => some v
      | none => d k
    some (d2, modelReset g fuel roots s1, t)

/-- `Variable.get_sample` (variables.py lines 115-122): sample this variable
with `resample=False` and `observed=self.is_observed`, keep its own entry of
the returned dictionary, reset, and return. -/
def varGetSample (g : Graph) (env : Env) (i : Nat) (n : Nat) (vals : Assignment)
    (fuel : Nat) (s : GState) : Option (Option Val × GState × List Nat) :=
  match sampleNode g env n false ((s i).observed) vals fuel i s with
  | none => none
  | some (d, s1, t) => some (d i, resetNode g fuel i s1, t)

/-- The argument of `RandomVariable.observe` after `pandas_frame2value`:
either a fixed data value or a random dataset variable. -/
inductive ObsData where
  | value (v : Val)
  | rvDataset (id : Nat)

/-- `RandomVariable.observe` (variables.py lines 439-450): a random-variable
argument installs a random dataset, any other data is coerced and bound as
the fixed observed value; `_observed` is set in both cases and no other field
is touched. -/
def observe (s : GState) (i : Nat) (d : ObsData) : GState :=
  fun j => if j = i then
    (match d with
     | ObsData.rvDataset k =>
       { s i with dataset := some k, hasRandomDataset := true, observed := true }
     | ObsData.value v =>
       { s i with observedValue := some v, hasObservedValue := true, observed := true })
  else s j

/-- `RandomVariable.unobserve` (variables.py lines 452-457). -/
def unobserve (s : GState) (i : Nat) : GState :=
  fun j => if j = i then
    { s i with observed := false, hasObservedValue := false, hasRandomDataset := false,
               observedValue := none, dataset := none }
  else s j

/-- The Python exception kinds raised by variables.py. -/
inductive PyError where
  | keyError (k : String)
  | valueError (msg : String)
  | attributeError (msg : String)
  | notImplementedError (msg : String)
  | typeError (msg : String)
deriving DecidableEq, Repr

/-- A heap of Python `set` objects: `PartialLink.vars` sets are stored by
reference, so aliasing and in-place mutation (`set.add`) are observable,
while `set.union` allocates a fresh cell. -/
structure LHeap where
  sets : Nat → Finset Nat
  next : Nat

/-- Allocate a fresh set cell. -/
def alloc (h : LHeap) (x : Finset Nat) : Nat × LHeap :=
  (h.next, { sets := fun r => if r = h.next then x else h.sets r, next := h.next + 1 })

/-- A `PartialLink`: a heap reference to its free-variable set, its lazy
evaluation function over a values dictionary, and its `links` set (which no
operator ever mutates, so it is kept by value). -/
structure PLink where
  vars : Nat
  fn : (Nat → Option Val) → Option Val
  links : Finset Nat

/-- Apply a binary operator under the Python convention that a missing
dictionary key aborts evaluation. -/
def op2 (op : Val → Val → Val) : Option Val → Option Val → Option Val
  | some a, some b => some (op a b)
  | _, _ => none

/-- The possible right operands of `_apply_operator`: a `PartialLink`, a
`Variable`, a numeric/array constant, or an unsupported value. -/
inductive Operand where
  | plnk (p : PLink)
  | vr (id : Nat)
  | const (v : Val)
  | invalid

/-- `Variable._apply_operator` (variables.py lines 158-188).  For a
`PartialLink` operand the code runs `vars = other.vars` followed by
`vars.add(self)`: the local name aliases the operand's own set and the `add`
mutates it in place, and the returned link shares that same cell.  For a
`Variable` or constant operand a fresh two- or one-element set is built.
An unsupported operand raises `TypeError('')`. -/
def varApplyOperator (h : LHeap) (selfId : Nat) (other : Operand) (op : Val → Val → Val) :
    Except PyError (PLink × LHeap) :=
  match other with
  | Operand.plnk p =>
    let h2 : LHeap :=
      { h with sets := fun r => if r = p.vars then insert selfId (h.sets r) else h.sets r }
    Except.ok (⟨p.vars, fun values => op2 op (values selfId) (p.fn values), p.links⟩, h2)
  | Operand.vr j =>
    let a := alloc h ({selfId, j} : Finset Nat)
    Except.ok (⟨a.1, fun values => op2 op (values selfId) (values j), ∅⟩, a.2)
  | Operand.const v =>
    let a := alloc h ({selfId} : Finset Nat)
    Except.ok (⟨a.1, fun values => op2 op (values selfId) (some v), ∅⟩, a.2)
  | Operand.invalid => Except.error (PyError.typeError "")

/-- `PartialLink._apply_operator` (variables.py lines 693-697) after
`var2link` (lines 671-683): the result's set is built with `set.union`,
which allocates a fresh cell and leaves both operands' sets untouched. -/
def plApplyOperator (h : LHeap) (slf : PLink) (other : Operand) (op : Val → Val → Val) :
    Except PyError (PLink × LHeap) :=
  match other with
  | Operand.plnk p =>
    let a := alloc h (h.sets slf.vars ∪ h.sets p.vars)
    Except.ok (⟨a.1, fun values => op2 op (slf.fn values) (p.fn values),
               slf.links ∪ p.links⟩, a.2)
  | Operand.vr j =>
    let a1 := alloc h ({j} : Finset Nat)
    let a2 := alloc a1.2 (a1.2.sets slf.vars ∪ a1.2.sets a1.1)
    Except.ok (⟨a2.1, fun values => op2 op (slf.fn values) (values j),
               slf.links ∪ ∅⟩, a2.2)
  | Operand.const v =>
    let a1 := alloc h (∅ : Finset Nat)
    let a2 := alloc a1.2 (a1.2.sets slf.vars ∪ a1.2.sets a1.1)
    Except.ok (⟨a2.1, fun values => op2 op (slf.fn values) (some v),
               slf.links ∪ ∅⟩, a2.2)
  | Operand.invalid => Except.error (PyError.typeError "")

/-- The dictionary built by the comprehension
`{var.name: var for var in flat_list}`: later entries overwrite earlier
ones, so a key's value is that of its last occurrence — expressed by giving
the tail of the list priority. -/
def pyDictBuild : List (String × Nat) → String → Option Nat
  | [] => fun _ => none
  | kv :: rest => fun q =>
    match pyDictBuild rest q with
    | some v => some v
    | none => if q = kv.1 then some kv.2 else none

/-- `BrancherClass.get_variable` (variables.py lines 44-59): build the name
dictionary over the flattened list and index it.  Indexing a dict with a
missing key raises `KeyError`; the surrounding `except ValueError` clause
re-raises only a `ValueError` with the documented message, so the `KeyError`
propagates to the caller unchanged. -/
def get_variable (g : Graph) (flatList : List Nat) (name : String) : Except PyError Nat :=
  match (match pyDictBuild (flatList.map (fun i => (g.vname i, i))) name with
         | some v => Except.ok v
         | none => Except.error (PyError.keyError name)) with
  | Except.ok v => Except.ok v
  | Except.error e =>
    match e with
    | PyError.valueError _ =>
      Except.error
        (PyError.valueError ("The variable " ++ name ++ " is not present in the model"))
    | e2 => Except.error e2

/-- `flatten_list` of a comprehension of `_flatten` results: concatenation. -/
def flattenList (f : Nat → List Nat) : List Nat → List Nat
  | [] => []
  | p :: rest => f p ++ flattenList f rest

/-- `Variable._flatten` (variables.py lines 312-313 and 469-470): a
deterministic variable is just itself, a random variable is all its parents'
flattened lists followed by itself. -/
def flattenNode (g : Graph) : Nat → Nat → List Nat
  | 0, _ => []
  | fuel + 1, i =>
    match g.kind i with
    | VKind.deterministic => [i]
    | VKind.random => flattenList (fun p => flattenNode g fuel p) (g.parents i) ++ [i]

/-- `ProbabilisticModel._flatten` (variables.py lines 622-623). -/
def modelFlatten (g : Graph) (fuel : Nat) (roots : List Nat) : List Nat :=
  flattenList (fun r => flattenNode g fuel r) roots

/-- Python `dict.update({k: v})` on an association list: replace the value of
an existing key in place, or append a fresh entry. -/
def assocUpdate {β : Type} (l : List (Nat × β)) (k : Nat) (v : β) : List (Nat × β) :=
  if l.any (fun kv => kv.1 = k) then
    l.map (fun kv => if kv.1 = k then (k, v) else kv)
  else l ++ [(k, v)]

/-- The loop body of `PosteriorModel.set_model_mapping`: iterate the joint
model's flattened variables, recording a pair on a successful name lookup,
skipping a `KeyError` (`except KeyError: pass`) and aborting on any other
exception. -/
def smmFold (g : Graph) (postFlat : List Nat) :
    List Nat → List (Nat × Nat) → Except PyError (List (Nat × Nat))
  | [], m => Except.ok m
  | p :: rest, m =>
    match get_variable g postFlat (g.vname p) with
    | Except.ok q => smmFold g postFlat rest (assocUpdate m q p)
    | Except.error (PyError.keyError _) => smmFold g postFlat rest m
    | Except.error e => Except.error e

/-- `PosteriorModel.set_model_mapping` (variables.py lines 642-654): for every
variable in the joint model's flattened list, look up a same-named variable
in the posterior model's own flattened list via `get_variable`; record the
pair `posterior variable -> joint variable` on success, and silently skip a
missing name. -/
def set_model_mapping (g : Graph) (postFlat jointFlat : List Nat) :
    Except PyError (List (Nat × Nat)) :=
  smmFold g postFlat jointFlat []

/-- The loop body of `posterior_sample2joint_sample`: translate each sample
entry through the mapping, dropping keys the mapping does not contain
(`except KeyError: pass`). -/
def ps2jsFold (mapping : List (Nat × Nat)) :
    List (Nat × Val) → List (Nat × Val) → List (Nat × Val)
  | [], js => js
  | kv :: rest, js =>
    match List.lookup kv.1 mapping with
    | some j => ps2jsFold mapping rest (assocUpdate js j kv.2)
    | none => ps2jsFold mapping rest js

/-- `PosteriorModel.posterior_sample2joint_sample` (variables.py lines
656-663). -/
def posterior_sample2joint_sample (mapping : List (Nat × Nat))
    (postSample : List (Nat × Val)) : List (Nat × Val) :=
  ps2jsFold mapping postSample []

/-- A state in which node 0 is already marked evaluated. -/
def evalState : GState := fun _ => { blankNS with evaluated := true }

/-- A state in which node 0 caches two draws, is observed with a bound value,
and would be short-circuited by a bound input as well: the cached draw still
wins. -/
def cachedState : GState :=
  fun _ => { blankNS with samples := [Val.tensor 1, Val.tensor 2], observed := true,
                          hasObservedValue := true, observedValue := some (Val.tensor 5) }

/-- Concrete value addition used to evaluate the symbolic algebra. -/
def addV : Val → Val → Val
  | Val.tensor a, Val.tensor b => Val.tensor (a + b)
  | Val.tensor a, Val.discrete b => Val.tensor (a + b)
  | Val.discrete a, Val.tensor b => Val.tensor (a + b)
  | Val.discrete a, Val.discrete b => Val.discrete (a + b)

/-- A heap holding one link set: cell 0 is the set containing variable 10. -/
def c8h0 : LHeap := { sets := fun r => if r = 0 then ({10} : Finset Nat) else ∅, next := 1 }

/-- A `PartialLink` reading variable 10, whose `vars` set lives in cell 0. -/
def c8pl : PLink := ⟨0, fun values => values 10, ∅⟩

/-- The heap after `Variable._apply_operator` has run `vars.add(self)` on the
aliased cell 0. -/
def c8h1 : LHeap :=
  { c8h0 with sets := fun r => if r = 0 then insert 5 (c8h0.sets r) else c8h0.sets r }

/-- A values dictionary binding variable 5 to 2 and variable 10 to 3. -/
def c8vals : Nat → Option Val :=
  fun k => if k = 5 then some (Val.tensor 2) else if k = 10 then some (Val.tensor 3) else none

/-- A two-cell heap for the `PartialLink + PartialLink` contrast. -/
def c8h2 : LHeap :=
  { sets := fun r => if r = 0 then ({10} : Finset Nat) else
      if r = 1 then ({11} : Finset Nat) else ∅, next := 2 }

/-- A second `PartialLink` reading variable 11, with `vars` in cell 1. -/
def c8pl1 : PLink := ⟨1, fun values => values 11, ∅⟩

/-- A graph carrying the spec's example names: posterior variable 0 is named
`mu_post`; joint variables 1 and 2 are named `mu_post` and `sigma`. -/
def g7 : Graph where
  kind := fun _ => VKind.random
  vname := fun i => if i = 0 then "mu_post" else if i = 1 then "mu_post" else "sigma"
  parents := fun _ => []
  parentsWf := by intro i p hp; simp at hp
  detNoParents := by intro i _; rfl

/-- Reachability by following `parents` edges (reflexive-transitive): the set
`flatten` closes over and `reset` recurses through. -/
inductive Reach (g : Graph) : Nat → Nat → Prop
  | refl (i : Nat) : Reach g i i
  | step {i j p : Nat} : Reach g i j → p ∈ g.parents j → Reach g i p

/-- Marking a node evaluated, at the `NodeState` level. -/
def evalNS (ns : NodeState) : NodeState := { ns with evaluated := true }

/-- A state whose evaluation caches are clean on the whole DAG reachable from
the given roots, as guaranteed by the reset-on-exit contract. -/
def CleanOn (g : Graph) (roots : List Nat) (s : GState) : Prop :=
  ∀ j, (∃ r ∈ roots, Reach g r j) → g.kind j = VKind.random →
    (s j).samples = [] ∧ (s j).evaluated = false ∧ (s j).currentValue = none

/-- A state with every cache dirty, to witness the reset. -/
def dirtyState : GState :=
  fun _ => { blankNS with samples := [Val.tensor 1], evaluated := true,
                          currentValue := some (Val.tensor 2) }

/-- The observation-relevant state for a node `i` whose own distribution must
never be drawn from in observed mode: `i` carries a fixed observed value or a
random dataset, and no node's dataset points at `i`. -/
def AvoidInv (i : Nat) (s : GState) : Prop :=
  ((s i).hasObservedValue = true ∨ (s i).hasRandomDataset = true) ∧
  ∀ k, (s k).dataset ≠ some i

/-- No node is observed through a random dataset (sampling then only follows
`parents` edges). -/
def NoDatasets (s : GState) : Prop := ∀ k, (s k).hasRandomDataset = false

/-- The posterior model attached to a joint model, as
`estimate_log_model_evidence` consumes it: its declared roots and its
`posterior_sample2joint_sample` translation. -/
structure PosteriorHandle where
  roots : List Nat
  translate : Assignment → Assignment

/-- `ProbabilisticModel.estimate_log_model_evidence` (variables.py lines
601-613).  `check_posterior_model` raises `AttributeError` when no posterior
model is attached; `method is "ELBO"` (an identity comparison that holds for
the literal) selects the ELBO branch, any other method raises
`NotImplementedError`.  The ELBO branch draws one observed-mode sample from
the observed submodel (whose declared roots are `obsRoots`), draws
`nsamples` unobserved samples from the posterior model, evaluates the
posterior's log-probability on its own samples, merges the observed draw
with the translated posterior samples (`samples.update(...)`, translated
entries winning), evaluates the joint model's log-probability on the merged
assignment, and returns `F.mean(joint - posterior)`.  An internal sampling
failure is `none`. -/
def estimateLogModelEvidence (g : Graph) (env : Env) (jointRoots obsRoots : List Nat)
    (pm : Option PosteriorHandle) (nsamples : Nat) (method : String) (vals : Assignment)
    (fuel : Nat) (s : GState) : Option (Except PyError (Int × GState)) :=
  match pm with
  | none => some (Except.error (PyError.attributeError
      "The posterior model has not been initialized."))
  | some post =>
    if method = "ELBO" then
      match modelGetSample g env obsRoots 1 true emptyAssignment fuel s with
      | none => none
      | some (obsS, s1, _) =>
        match modelGetSample g env post.roots nsamples false vals fuel s1 with
        | none => none
        | some (postS, s2, _) =>
          match modelCLP g env post.roots postS fuel s2 with
          | none => none
          | some (plp, s3) =>
            match modelCLP g env jointRoots (aunion obsS (post.translate postS)) fuel s3 with
            | none => none
            | some (jlp, s4) => some (Except.ok (env.fmean (jlp - plp), s4))
    else some (Except.error (PyError.notImplementedError
      "The requested estimation method is currently not implemented."))

/-- A degenerate posterior handle over no roots. -/
def postW : PosteriorHandle where
  roots := []
  translate := fun a => a

/-- A state binding the fixed observed tensor 7 on node 0, with clean cache. -/
def obsState : GState :=
  fun _ => { blankNS with observed := true, hasObservedValue := true,
                          observedValue := some (Val.tensor 7) }

section ConcreteInstances

/-- The diamond DAG of the spec's testable property: parent `P` (node 0)
feeds children `C1` (node 1) and `C2` (node 2), both feeding root `R`
(node 3); every node is a `RandomVariable`. -/
def diamondG : Graph where
  kind := fun _ => VKind.random
  vname := fun i => toString i
  parents := fun i => match i with
    | 1 => [0]
    | 2 => [0]
    | 3 => [1, 2]
    | _ => []
  parentsWf := by
    intro i p hp
    match i with
    | 0 => simp at hp
    | 1 => simp at hp; omega
    | 2 => simp at hp; omega
    | 3 => simp at hp; rcases hp with h | h <;> omega
    | (m + 4) => simp at hp
  detNoParents := by
    intro i h
    match i with
    | 0 => simp [VKind] at h
    | 1 => simp [VKind] at h
    | 2 => simp [VKind] at h
    | 3 => simp [VKind] at h
    | (m + 4) => simp [VKind] at h

/-- A clean state (all caches empty, nothing observed) carrying an arbitrary
current-value assignment. -/
def cleanState (cv : Nat → Option Val) : GState :=
  fun j => { blankNS with currentValue := cv j }

/-- An environment whose per-node density ignores value and parameters: used
to count how often each node's density enters a total. -/
def countEnv (L : Nat → Int) : Env where
  logp := fun i _ _ => L i
  sumData := fun x => x
  draw := fun _ _ _ => Val.tensor 9
  tile := fun v _ => v
  fmean := fun x => x

/-- A concrete environment for witnesses. -/
def cEnv : Env where
  logp := fun i _ _ => Int.ofNat i + 1
  sumData := fun x => x
  draw := fun _ _ _ => Val.tensor 9
  tile := fun v _ => v
  fmean := fun x => x

/-- The fully blank state. -/
def cState : GState := fun _ => blankNS

/-- A one-variable graph whose only variable (node 0) is deterministic and
named `x`. -/
def xG : Graph where
  kind := fun _ => VKind.deterministic
  vname := fun i => if i = 0 then "x" else "z"
  parents := fun _ => []
  parentsWf := by intro i p hp; simp at hp
  detNoParents := by intro i _; rfl

end ConcreteInstances

/-- C1: if a `RandomVariable` is already marked `_evaluated` in the current
pass, `calculate_log_probability` with `reevaluate=False` returns the
additive identity 0 and leaves the state untouched; consequently, on the
diamond DAG `P -> C1, C2 -> R`, the model-level total counts `P`'s density
exactly once, and it is the same whichever of `C1`/`C2` is visited first. -/
theorem c1_memo_and_diamond_once :
    (∀ (g : Graph) (env : Env) (vals : Assignment) (fuel i : Nat) (s : GState),
      g.kind i = VKind.random → (s i).evaluated = true →
      clp g env vals false (fuel + 1) i s = some (0, s)) ∧
    (∀ (env : Env) (vals : Assignment) (cv : Nat → Option Val),
      (modelCLP diamondG env [1, 2, 3] vals 4 (cleanState cv)).map Prod.fst =
      (modelCLP diamondG env [2, 1, 3] vals 4 (cleanState cv)).map Prod.fst) ∧
    (∀ (L : Nat → Int) (vals : Assignment) (cv : Nat → Option Val),
      (modelCLP diamondG (countEnv L) [3] vals 4 (cleanState cv)).map Prod.fst =
        some (L 0 + L 1 + L 2 + L 3)) := by
  refine ⟨?_, ?_, ?_⟩
  · intro g env vals fuel i s hk he
    simp [clp, hk, he]
  · intro env vals cv
    simp [modelCLP, clp, clpList, modelReset, diamondG, cleanState, blankNS,
      setEvaluated, detParentVals, rvValue, single, emptyAssignment, aunion]
    ring
  · intro L vals cv
    simp [modelCLP, clp, clpList, modelReset, diamondG, cleanState, blankNS,
      setEvaluated, detParentVals, rvValue, single, emptyAssignment, aunion, countEnv]
    ring

/-- Witness for C1 at a concrete input. -/
theorem c1_memo_and_diamond_once_witness :
    clp diamondG cEnv emptyAssignment false 1 0 evalState = some (0, evalState) :=
  c1_memo_and_diamond_once.1 diamondG cEnv emptyAssignment 0 0 evalState rfl rfl

/-- C4: when a random variable holds a cached draw and `resample` is false,
`_get_sample` returns `{self: samples[-1]}` with the state untouched and no
distribution draw, whatever the `observed` flag and the bound input values
are: the cached-draw check precedes every other branch. -/
theorem c4_sample_cache_precedence :
    ∀ (g : Graph) (env : Env) (n : Nat) (observed : Bool) (vals : Assignment)
      (fuel i : Nat) (s : GState) (v : Val),
      g.kind i = VKind.random → (s i).samples.getLast? = some v →
      sampleNode g env n false observed vals (fuel + 1) i s = some (single i v, s, []) := by
  intro g env n observed vals fuel i s v hk hv
  simp [sampleNode, hk, hv]

/-- Witness for C4 at a concrete input: despite an observed value 5 and a
bound input 7, the cached most-recent draw 2 is returned unchanged. -/
theorem c4_sample_cache_precedence_witness :
    sampleNode diamondG cEnv 3 false true (single 0 (Val.tensor 7)) 1 0 cachedState =
      some (single 0 (Val.tensor 2), cachedState, []) :=
  c4_sample_cache_precedence diamondG cEnv 3 true (single 0 (Val.tensor 7)) 0 0
    cachedState (Val.tensor 2) rfl rfl

/-- C6 (code bug): `get_variable` on a name absent from the flattened DAG
raises the bare `KeyError` from the dict lookup, not the documented
`ValueError` message — the `except ValueError` clause can never catch the
`KeyError` that dict indexing raises.  On a present, unique name the lookup
succeeds. -/
theorem c6_get_variable_keyerror :
    get_variable xG (modelFlatten xG 1 [0]) "x" = Except.ok 0 ∧
    get_variable xG (modelFlatten xG 1 [0]) "y" = Except.error (PyError.keyError "y") ∧
    (∀ msg : String,
      get_variable xG (modelFlatten xG 1 [0]) "y" ≠ Except.error (PyError.valueError msg)) := by
  refine ⟨rfl, rfl, ?_⟩
  intro msg h
  simp [get_variable, modelFlatten, flattenList, flattenNode, xG, pyDictBuild] at h

/-- C8 (code bug): combining Variable 5 with the `PartialLink` `c8pl` builds
the composed link — its `vars` is the union of the free-variable sets and its
`fn` composes the operands' functions — but the code aliases and mutates the
operand's own `vars` set in place (cell 0 changes from the set containing 10
to the set containing 5 and 10, and the new link shares that very cell), so
the operand is not left unchanged.  In contrast,
`PartialLink._apply_operator` builds its union with `set.union` into a fresh
cell and leaves both operands' sets untouched. -/
theorem c8_varapply_mutates_operand :
    varApplyOperator c8h0 5 (Operand.plnk c8pl) addV =
      Except.ok (⟨0, fun values => op2 addV (values 5) (c8pl.fn values), ∅⟩, c8h1) ∧
    c8h0.sets 0 = ({10} : Finset Nat) ∧
    c8h1.sets 0 = ({5, 10} : Finset Nat) ∧
    c8h1.sets 0 ≠ c8h0.sets 0 ∧
    op2 addV (c8vals 5) (c8pl.fn c8vals) = some (Val.tensor 5) ∧
    (plApplyOperator c8h2 c8pl (Operand.plnk c8pl1) addV).toOption.map
        (fun r => (r.1.vars, r.2.sets 0, r.2.sets 1, r.2.sets r.1.vars)) =
      some (2, ({10} : Finset Nat), ({11} : Finset Nat), ({10, 11} : Finset Nat)) := by
  refine ⟨rfl, by decide, by decide, by decide, rfl, by decide⟩

section NameLookup

theorem pyDictBuild_none_iff (l : List (String × Nat)) (q : String) :
    pyDictBuild l q = none ↔ q ∉ l.map Prod.fst := by
  induction l with
  | nil => simp [pyDictBuild]
  | cons kv rest ih =>
    simp only [pyDictBuild, List.map_cons, List.mem_cons]
    cases hr : pyDictBuild rest q with
    | some v2 =>
      have hq : q ∈ List.map Prod.fst rest := by
        by_contra h2
        rw [ih.mpr h2] at hr
        exact Option.noConfusion hr
      simp [hq]
    | none =>
      by_cases hqk : q = kv.1
      · simp [hqk]
      · simp [hqk, ih.mp hr]

theorem pyDictBuild_some_iff (q : String) (v : Nat) :
    ∀ (l : List (String × Nat)), (l.map Prod.fst).Nodup →
      (pyDictBuild l q = some v ↔ (q, v) ∈ l) := by
  intro l
  induction l with
  | nil => intro _; simp [pyDictBuild]
  | cons kv rest ih =>
    intro h
    obtain ⟨k1, v1⟩ := kv
    simp only [List.map_cons, List.nodup_cons] at h
    obtain ⟨hk, hrest⟩ := h
    have ihr := ih hrest
    have hstep : pyDictBuild ((k1, v1) :: rest) q =
        (match pyDictBuild rest q with
         | some v2 => some v2
         | none => if q = k1 then some v1 else none) := rfl
    cases hr : pyDictBuild rest q with
    | some v2 =>
      have hq : q ∈ List.map Prod.fst rest := by
        by_contra h2
        rw [(pyDictBuild_none_iff rest q).mpr h2] at hr
        exact Option.noConfusion hr
      simp only [hstep, hr, List.mem_cons]
      constructor
      · intro he
        exact Or.inr (ihr.mp (hr.trans he))
      · rintro (he | hm)
        · injection he with h1 _
          exact absurd (h1 ▸ hq) hk
        · rw [← hr]
          exact ihr.mpr hm
    | none =>
      simp only [hstep, hr, List.mem_cons]
      by_cases hqk : q = k1
      · subst hqk
        simp only [if_pos rfl]
        constructor
        · intro he
          injection he with h2
          exact Or.inl (by rw [h2])
        · rintro (he | hm)
          · injection he with _ h2
            simp [h2]
          · exact Option.noConfusion (hr.symm.trans (ihr.mpr hm))
      · simp only [if_neg hqk]
        constructor
        · intro he
          exact Option.noConfusion he
        · rintro (he | hm)
          · injection he with h1 _
            exact absurd h1 hqk
          · exact Option.noConfusion (hr.symm.trans (ihr.mpr hm))

theorem get_variable_eq (g : Graph) (fl : List Nat) (name : String) :
    get_variable g fl name =
      (match pyDictBuild (fl.map fun i => (g.vname i, i)) name with
       | some v => Except.ok v
       | none => Except.error (PyError.keyError name)) := by
  unfold get_variable
  cases pyDictBuild (fl.map fun i => (g.vname i, i)) name <;> rfl

theorem get_variable_keys (g : Graph) (fl : List Nat) :
    (fl.map fun i => (g.vname i, i)).map Prod.fst = fl.map g.vname := by
  simp [List.map_map, Function.comp]

theorem get_variable_ok_iff (g : Graph) (fl : List Nat) (name : String) (q : Nat)
    (h : (fl.map g.vname).Nodup) :
    get_variable g fl name = Except.ok q ↔ q ∈ fl ∧ g.vname q = name := by
  have h2 : ((fl.map fun i => (g.vname i, i)).map Prod.fst).Nodup := by
    rw [get_variable_keys]; exact h
  rw [get_variable_eq]
  cases hr : pyDictBuild (fl.map fun i => (g.vname i, i)) name with
  | none =>
    simp only [reduceCtorEq, false_iff]
    rintro ⟨hq, hn⟩
    have hmem : name ∈ (fl.map fun i => (g.vname i, i)).map Prod.fst := by
      rw [get_variable_keys]
      exact List.mem_map.mpr ⟨q, hq, hn⟩
    exact absurd hmem ((pyDictBuild_none_iff _ _).mp hr)
  | some v =>
    have hmem := (pyDictBuild_some_iff name v _ h2).mp hr
    obtain ⟨i, hi, hpair⟩ := List.mem_map.mp hmem
    injection hpair with hn1 hv1
    subst hv1
    constructor
    · intro he
      injection he with he2
      subst he2
      exact ⟨hi, hn1⟩
    · rintro ⟨hq, hn⟩
      have heq : q = i :=
        List.inj_on_of_nodup_map h hq hi (by rw [hn, hn1])
      rw [heq]

theorem get_variable_err_iff (g : Graph) (fl : List Nat) (name : String) (e : PyError) :
    get_variable g fl name = Except.error e ↔
      e = PyError.keyError name ∧ name ∉ fl.map g.vname := by
  rw [get_variable_eq]
  cases hr : pyDictBuild (fl.map fun i => (g.vname i, i)) name with
  | some v =>
    have hmem : name ∈ fl.map g.vname := by
      rw [← get_variable_keys g fl]
      by_contra h2
      rw [(pyDictBuild_none_iff _ _).mpr h2] at hr
      exact Option.noConfusion hr
    simp [hmem]
  | none =>
    have hnm := (pyDictBuild_none_iff _ _).mp hr
    rw [get_variable_keys] at hnm
    simp only [Except.error.injEq]
    constructor
    · intro he
      exact ⟨he.symm, hnm⟩
    · rintro ⟨he, _⟩
      exact he.symm

theorem get_variable_total (g : Graph) (fl : List Nat) (name : String) :
    (∃ q, get_variable g fl name = Except.ok q) ∨
      get_variable g fl name = Except.error (PyError.keyError name) := by
  rw [get_variable_eq]
  cases pyDictBuild (fl.map fun i => (g.vname i, i)) name with
  | some v => exact Or.inl ⟨v, rfl⟩
  | none => exact Or.inr rfl

theorem assocUpdate_append {β : Type} (l : List (Nat × β)) (k : Nat) (v : β)
    (h : ∀ p ∈ l, p.1 ≠ k) : assocUpdate l k v = l ++ [(k, v)] := by
  unfold assocUpdate
  rw [if_neg]
  intro hc
  rw [List.any_eq_true] at hc
  obtain ⟨p, hp, hpk⟩ := hc
  exact h p hp (by simpa using hpk)

theorem lookup_mem_iff {β : Type} (k : Nat) (v : β) :
    ∀ (m : List (Nat × β)), (m.map Prod.fst).Nodup →
      (List.lookup k m = some v ↔ (k, v) ∈ m) := by
  intro m
  induction m with
  | nil => intro _; simp
  | cons kv rest ih =>
    intro h
    obtain ⟨k1, v1⟩ := kv
    simp only [List.map_cons, List.nodup_cons] at h
    obtain ⟨hk, hrest⟩ := h
    by_cases hkk : k = k1
    · subst hkk
      simp only [List.lookup_cons_self, List.mem_cons, Prod.mk.injEq, true_and]
      constructor
      · intro he
        injection he with h2
        exact Or.inl h2.symm
      · rintro (h2 | hm)
        · rw [h2]
        · exact absurd (List.mem_map.mpr ⟨(k, v), hm, rfl⟩) hk
    · have hbeq : (k == k1) = false := beq_eq_false_iff_ne.mpr hkk
      have hstep : List.lookup k ((k1, v1) :: rest) = List.lookup k rest := by
        simp [List.lookup_cons, hbeq]
      rw [hstep, ih hrest]
      simp [Prod.mk.injEq, hkk]

end NameLookup

section PosteriorMapping

theorem smmFold_char (g : Graph) (postFlat : List Nat)
    (hpost : (postFlat.map g.vname).Nodup) :
    ∀ (rest : List Nat) (m : List (Nat × Nat)) (P : List Nat),
      (rest.map g.vname).Nodup →
      (∀ r ∈ rest, g.vname r ∉ P.map g.vname) →
      (∀ q p, (q, p) ∈ m ↔ q ∈ postFlat ∧ p ∈ P ∧ g.vname q = g.vname p) →
      (m.map Prod.fst).Nodup →
      ∃ m2, smmFold g postFlat rest m = Except.ok m2 ∧
        (∀ q p, (q, p) ∈ m2 ↔
          q ∈ postFlat ∧ (p ∈ P ∨ p ∈ rest) ∧ g.vname q = g.vname p) ∧
        (m2.map Prod.fst).Nodup := by
  intro rest
  induction rest with
  | nil =>
    intro m P _ _ hchar hnd
    refine ⟨m, rfl, ?_, hnd⟩
    intro q p
    rw [hchar q p]
    simp
  | cons r rest' ih =>
    intro m P hnd hdisj hchar hmnd
    simp only [List.map_cons, List.nodup_cons] at hnd
    obtain ⟨hrn, hnd'⟩ := hnd
    have hdisj' : ∀ r2 ∈ rest', g.vname r2 ∉ (P ++ [r]).map g.vname := by
      intro r2 hr2
      simp only [List.map_append, List.mem_append, List.map_cons, List.map_nil,
        List.mem_singleton]
      rintro (hin | hin)
      · exact hdisj r2 (List.mem_cons_of_mem _ hr2) hin
      · exact hrn (hin ▸ List.mem_map.mpr ⟨r2, hr2, rfl⟩)
    rcases get_variable_total g postFlat (g.vname r) with ⟨q0, hq0⟩ | herr
    · obtain ⟨hq0mem, hq0name⟩ :=
        (get_variable_ok_iff g postFlat (g.vname r) q0 hpost).mp hq0
      have hfresh : ∀ pr ∈ m, pr.1 ≠ q0 := by
        intro pr hpr he
        obtain ⟨qa, pa⟩ := pr
        have he2 : qa = q0 := he
        obtain ⟨_, hpaP, hnamepa⟩ := (hchar qa pa).mp hpr
        rw [he2] at hnamepa
        exact hdisj r (List.mem_cons_self _ _)
          (List.mem_map.mpr ⟨pa, hpaP, hnamepa.symm.trans hq0name⟩)
      have hupd : assocUpdate m q0 r = m ++ [(q0, r)] := assocUpdate_append m q0 r hfresh
      have hchar' : ∀ q p, (q, p) ∈ m ++ [(q0, r)] ↔
          q ∈ postFlat ∧ p ∈ P ++ [r] ∧ g.vname q = g.vname p := by
        intro q p
        simp only [List.mem_append, List.mem_singleton, Prod.mk.injEq]
        constructor
        · rintro (hm | ⟨rfl, rfl⟩)
          · obtain ⟨h1, h2, h3⟩ := (hchar q p).mp hm
            exact ⟨h1, Or.inl h2, h3⟩
          · exact ⟨hq0mem, Or.inr rfl, hq0name⟩
        · rintro ⟨h1, hp, h3⟩
          rcases hp with hp | hpr
          · exact Or.inl ((hchar q p).mpr ⟨h1, hp, h3⟩)
          · right
            have hq : get_variable g postFlat (g.vname r) = Except.ok q :=
              (get_variable_ok_iff g postFlat (g.vname r) q hpost).mpr ⟨h1, hpr ▸ h3⟩
            have hqq := hq0.symm.trans hq
            injection hqq with hqq
            exact ⟨hqq.symm, hpr⟩
      have hmnd' : ((m ++ [(q0, r)]).map Prod.fst).Nodup := by
        rw [List.map_append]
        refine List.Nodup.append hmnd (by simp) ?_
        intro a ha hb
        simp only [List.map_cons, List.map_nil, List.mem_singleton] at hb
        subst hb
        obtain ⟨pr, hpr, hpr1⟩ := List.mem_map.mp ha
        exact hfresh pr hpr hpr1
      simp only [smmFold, hq0]
      rw [hupd]
      obtain ⟨m2, h1, h2, h3⟩ := ih (m ++ [(q0, r)]) (P ++ [r]) hnd' hdisj' hchar' hmnd'
      refine ⟨m2, h1, ?_, h3⟩
      intro q p
      rw [h2 q p]
      simp only [List.mem_append, List.mem_singleton, List.mem_cons]
      tauto
    · obtain ⟨_, hnotin⟩ := (get_variable_err_iff g postFlat (g.vname r) _).mp herr
      have hchar' : ∀ q p, (q, p) ∈ m ↔
          q ∈ postFlat ∧ p ∈ P ++ [r] ∧ g.vname q = g.vname p := by
        intro q p
        rw [hchar q p]
        simp only [List.mem_append, List.mem_singleton]
        constructor
        · rintro ⟨h1, h2, h3⟩
          exact ⟨h1, Or.inl h2, h3⟩
        · rintro ⟨h1, hp | rfl, h3⟩
          · exact ⟨h1, hp, h3⟩
          · exact absurd (List.mem_map.mpr ⟨q, h1, h3⟩) hnotin
      simp only [smmFold, herr]
      obtain ⟨m2, h1, h2, h3⟩ := ih m (P ++ [r]) hnd' hdisj' hchar' hmnd
      refine ⟨m2, h1, ?_, h3⟩
      intro q p
      rw [h2 q p]
      simp only [List.mem_append, List.mem_singleton, List.mem_cons]
      tauto

theorem ps2jsFold_char (mapping : List (Nat × Nat))
    (hinj : ∀ k k2 j, (k, j) ∈ mapping → (k2, j) ∈ mapping → k = k2)
    (hmk : (mapping.map Prod.fst).Nodup) :
    ∀ (rest js P : List (Nat × Val)),
      (rest.map Prod.fst).Nodup →
      (∀ e ∈ rest, e.1 ∉ P.map Prod.fst) →
      (∀ j v, (j, v) ∈ js ↔ ∃ k, (k, v) ∈ P ∧ List.lookup k mapping = some j) →
      ∀ j v, (j, v) ∈ ps2jsFold mapping rest js ↔
        ∃ k, ((k, v) ∈ P ∨ (k, v) ∈ rest) ∧ List.lookup k mapping = some j := by
  intro rest
  induction rest with
  | nil =>
    intro js P _ _ hchar j v
    simp only [ps2jsFold]
    rw [hchar j v]
    simp
  | cons kv rest' ih =>
    intro js P hnd hdisj hchar j v
    obtain ⟨k0, v0⟩ := kv
    simp only [List.map_cons, List.nodup_cons] at hnd
    obtain ⟨hk0, hnd'⟩ := hnd
    have hdisj' : ∀ e ∈ rest', e.1 ∉ (P ++ [(k0, v0)]).map Prod.fst := by
      intro e he
      simp only [List.map_append, List.mem_append, List.map_cons, List.map_nil,
        List.mem_singleton]
      rintro (hin | hin)
      · exact hdisj e (List.mem_cons_of_mem _ he) hin
      · exact hk0 (hin ▸ List.mem_map.mpr ⟨e, he, rfl⟩)
    cases hl : List.lookup k0 mapping with
    | some j0 =>
      have hfresh : ∀ pr ∈ js, pr.1 ≠ j0 := by
        intro pr hpr he
        obtain ⟨ja, va⟩ := pr
        have he2 : ja = j0 := he
        rw [he2] at hpr
        obtain ⟨k2, hk2P, hlk2⟩ := (hchar j0 va).mp hpr
        have hm2 : (k2, j0) ∈ mapping := (lookup_mem_iff k2 j0 mapping hmk).mp hlk2
        have hm0 : (k0, j0) ∈ mapping := (lookup_mem_iff k0 j0 mapping hmk).mp hl
        have hk20 : k2 = k0 := hinj k2 k0 j0 hm2 hm0
        subst hk20
        exact hdisj (k2, v0) (List.mem_cons_self _ _)
          (List.mem_map.mpr ⟨(k2, va), hk2P, rfl⟩)
      have hupd := assocUpdate_append js j0 v0 hfresh
      have hchar' : ∀ j2 v2, (j2, v2) ∈ js ++ [(j0, v0)] ↔
          ∃ k, (k, v2) ∈ P ++ [(k0, v0)] ∧ List.lookup k mapping = some j2 := by
        intro j2 v2
        simp only [List.mem_append, List.mem_singleton, Prod.mk.injEq]
        constructor
        · rintro (hm | ⟨rfl, rfl⟩)
          · obtain ⟨k, hk, hlk⟩ := (hchar j2 v2).mp hm
            exact ⟨k, Or.inl hk, hlk⟩
          · exact ⟨k0, Or.inr ⟨rfl, rfl⟩, hl⟩
        · rintro ⟨k, hk | ⟨rfl, rfl⟩, hlk⟩
          · exact Or.inl ((hchar j2 v2).mpr ⟨k, hk, hlk⟩)
          · have := hl.symm.trans hlk
            injection this with h2
            exact Or.inr ⟨h2.symm, rfl⟩
      simp only [ps2jsFold, hl]
      rw [hupd]
      rw [ih (js ++ [(j0, v0)]) (P ++ [(k0, v0)]) hnd' hdisj' hchar' j v]
      constructor
      · rintro ⟨k, hk | hk, hlk⟩
        · rcases List.mem_append.mp hk with hk2 | hk2
          · exact ⟨k, Or.inl hk2, hlk⟩
          · exact ⟨k, Or.inr (by simpa using Or.inl (List.mem_singleton.mp hk2)), hlk⟩
        · exact ⟨k, Or.inr (List.mem_cons_of_mem _ hk), hlk⟩
      · rintro ⟨k, hk | hk, hlk⟩
        · exact ⟨k, Or.inl (List.mem_append_left _ hk), hlk⟩
        · rcases List.mem_cons.mp hk with hk2 | hk2
          · exact ⟨k, Or.inl (List.mem_append_right _ (by simp [hk2])), hlk⟩
          · exact ⟨k, Or.inr hk2, hlk⟩
    | none =>
      have hchar' : ∀ j2 v2, (j2, v2) ∈ js ↔
          ∃ k, (k, v2) ∈ P ++ [(k0, v0)] ∧ List.lookup k mapping = some j2 := by
        intro j2 v2
        rw [hchar j2 v2]
        constructor
        · rintro ⟨k, hk, hlk⟩
          exact ⟨k, List.mem_append_left _ hk, hlk⟩
        · rintro ⟨k, hk, hlk⟩
          rcases List.mem_append.mp hk with hk2 | hk2
          · exact ⟨k, hk2, hlk⟩
          · obtain ⟨rfl, rfl⟩ : k = k0 ∧ v2 = v0 := by simpa using hk2
            rw [hl] at hlk
            exact Option.noConfusion hlk
      simp only [ps2jsFold, hl]
      rw [ih js (P ++ [(k0, v0)]) hnd' hdisj' hchar' j v]
      constructor
      · rintro ⟨k, hk | hk, hlk⟩
        · rcases List.mem_append.mp hk with hk2 | hk2
          · exact ⟨k, Or.inl hk2, hlk⟩
          · obtain ⟨rfl, rfl⟩ : k = k0 ∧ v = v0 := by simpa using hk2
            rw [hl] at hlk
            exact Option.noConfusion hlk
        · exact ⟨k, Or.inr (List.mem_cons_of_mem _ hk), hlk⟩
      · rintro ⟨k, hk | hk, hlk⟩
        · exact ⟨k, Or.inl (List.mem_append_left _ hk), hlk⟩
        · rcases List.mem_cons.mp hk with hk2 | hk2
          · obtain ⟨rfl, rfl⟩ : k = k0 ∧ v = v0 := by simpa using hk2
            rw [hl] at hlk
            exact Option.noConfusion hlk
          · exact ⟨k, Or.inr hk2, hlk⟩

end PosteriorMapping

/-- C7: `PosteriorModel` construction records exactly the name-matching
pairs — a pair `(posterior variable, joint variable)` is in `model_mapping`
precisely when both are reachable and share a name — a joint variable with no
same-named posterior variable is silently skipped (the construction never
raises), and `posterior_sample2joint_sample` translates exactly the sample
keys that `model_mapping` contains, dropping every unmatched key without
error. -/
theorem c7_posterior_mapping_by_name (g : Graph) (postFlat jointFlat : List Nat)
    (hpost : (postFlat.map g.vname).Nodup) (hjoint : (jointFlat.map g.vname).Nodup) :
    ∃ m, set_model_mapping g postFlat jointFlat = Except.ok m ∧
      (∀ q p, (q, p) ∈ m ↔ q ∈ postFlat ∧ p ∈ jointFlat ∧ g.vname q = g.vname p) ∧
      ∀ (postSample : List (Nat × Val)), (postSample.map Prod.fst).Nodup →
        ∀ j v, (j, v) ∈ posterior_sample2joint_sample m postSample ↔
          ∃ k, (k, v) ∈ postSample ∧ List.lookup k m = some j := by
  obtain ⟨m, h1, h2, h3⟩ :=
    smmFold_char g postFlat hpost jointFlat [] [] hjoint (by simp) (by simp) (by simp)
  have h2' : ∀ q p, (q, p) ∈ m ↔ q ∈ postFlat ∧ p ∈ jointFlat ∧ g.vname q = g.vname p := by
    intro q p
    rw [h2 q p]
    simp
  refine ⟨m, h1, h2', ?_⟩
  have hinj : ∀ k k2 j, (k, j) ∈ m → (k2, j) ∈ m → k = k2 := by
    intro k k2 j hk hk2
    obtain ⟨hkp, _, hkn⟩ := (h2' k j).mp hk
    obtain ⟨hk2p, _, hk2n⟩ := (h2' k2 j).mp hk2
    exact List.inj_on_of_nodup_map hpost hkp hk2p (hkn.trans hk2n.symm)
  intro postSample hnd j v
  have hmain : (j, v) ∈ posterior_sample2joint_sample m postSample ↔
      ∃ k, ((k, v) ∈ ([] : List (Nat × Val)) ∨ (k, v) ∈ postSample) ∧
        List.lookup k m = some j :=
    ps2jsFold_char m hinj h3 postSample [] [] hnd (by simp) (by simp) j v
  rw [hmain]
  simp

/-- Witness for C7: posterior flat set of names is the singleton `mu_post`,
joint names are `mu_post` and `sigma`; a posterior sample with the mapped key
0 and the unrelated key 9 translates exactly the mapped key. -/
theorem c7_posterior_mapping_by_name_witness :
    ∃ m, set_model_mapping g7 [0] [1, 2] = Except.ok m ∧
      (∀ q p, (q, p) ∈ m ↔ q ∈ [0] ∧ p ∈ [1, 2] ∧ g7.vname q = g7.vname p) ∧
      ∀ j v, (j, v) ∈ posterior_sample2joint_sample m
          [(0, Val.tensor 4), (9, Val.tensor 8)] ↔
        ∃ k, (k, v) ∈ [(0, Val.tensor 4), (9, Val.tensor 8)] ∧
          List.lookup k m = some j := by
  obtain ⟨m, h1, h2, h3⟩ :=
    c7_posterior_mapping_by_name g7 [0] [1, 2] (by decide) (by decide)
  exact ⟨m, h1, h2, h3 [(0, Val.tensor 4), (9, Val.tensor 8)] (by decide)⟩

section Reachability

theorem Reach.le {g : Graph} {i j : Nat} (h : Reach g i j) : j ≤ i := by
  induction h with
  | refl => exact Nat.le_refl _
  | step h hp ih => exact Nat.le_of_lt (Nat.lt_of_lt_of_le (g.parentsWf _ _ hp) ih)

theorem Reach.trans' {g : Graph} {i j k : Nat} (h1 : Reach g i j) (h2 : Reach g j k) :
    Reach g i k := by
  induction h2 with
  | refl => exact h1
  | step h hp ih => exact Reach.step ih hp

theorem Reach.parent {g : Graph} {i p : Nat} (hp : p ∈ g.parents i) : Reach g i p :=
  Reach.step (Reach.refl i) hp

theorem Reach.cases_head {g : Graph} {i j : Nat} (h : Reach g i j) :
    j = i ∨ ∃ p ∈ g.parents i, Reach g p j := by
  induction h with
  | refl => exact Or.inl rfl
  | step h hp ih =>
    rcases ih with rfl | ⟨p0, h0, hr⟩
    · exact Or.inr ⟨_, hp, Reach.refl _⟩
    · exact Or.inr ⟨p0, h0, Reach.step hr hp⟩

end Reachability

section ResetLemmas

theorem clearNS_idem (ns : NodeState) : clearNS (clearNS ns) = clearNS ns := rfl

theorem clearNS_eq_self {ns : NodeState} (h1 : ns.samples = []) (h2 : ns.evaluated = false)
    (h3 : ns.currentValue = none) : clearNS ns = ns := by
  cases ns
  simp only [clearNS] at *
  simp [h1, h2, h3]

theorem resetList_pointwise (f : Nat → GState → GState) (l : List Nat) (j : Nat)
    (h : ∀ p ∈ l, ∀ s', f p s' j = s' j) : ∀ s, resetList f l s j = s j := by
  induction l with
  | nil => intro s; rfl
  | cons p rest ih =>
    intro s
    have := ih (fun p2 hp2 s' => h p2 (List.mem_cons_of_mem _ hp2) s') (f p s)
    rw [resetList, this, h p (List.mem_cons_self _ _) s]

theorem resetNode_frame (g : Graph) :
    ∀ (fuel i : Nat) (s : GState) (j : Nat),
      ¬(Reach g i j ∧ g.kind j = VKind.random) → resetNode g fuel i s j = s j := by
  intro fuel
  induction fuel with
  | zero => intro i s j _; rfl
  | succ fuel ih =>
    intro i s j hn
    simp only [resetNode]
    by_cases hk : g.kind i = VKind.deterministic
    · rw [if_pos hk]
    · rw [if_neg hk]
      have hki : g.kind i = VKind.random := by
        cases h2 : g.kind i
        · exact absurd h2 hk
        · rfl
      have hji : j ≠ i := by
        rintro rfl
        exact hn ⟨Reach.refl j, hki⟩
      have hstep : ∀ p ∈ g.parents i, ∀ s', resetNode g fuel p s' j = s' j := by
        intro p hp s'
        apply ih
        rintro ⟨hr, hkj⟩
        exact hn ⟨Reach.trans' (Reach.parent hp) hr, hkj⟩
      rw [resetList_pointwise (fun p s' => resetNode g fuel p s') (g.parents i) j hstep]
      simp [hji]

theorem resetList_pc (f : Nat → GState → GState) (l : List Nat) (j : Nat)
    (hall : ∀ q ∈ l, ∀ s', f q s' j = s' j ∨ f q s' j = clearNS (s' j)) :
    ∀ s, resetList f l s j = s j ∨ resetList f l s j = clearNS (s j) := by
  induction l with
  | nil => intro s; exact Or.inl rfl
  | cons q rest ih =>
    intro s
    have hrest := ih (fun q2 hq2 s' => hall q2 (List.mem_cons_of_mem _ hq2) s') (f q s)
    rw [resetList]
    rcases hall q (List.mem_cons_self _ _) s with hq | hq <;>
      rcases hrest with hr | hr <;> rw [hr, hq]
    · exact Or.inl rfl
    · exact Or.inr rfl
    · exact Or.inr rfl
    · exact Or.inr (clearNS_idem (s j))

theorem resetList_clears_of_mem (f : Nat → GState → GState) (l : List Nat) (j p : Nat)
    (hp : p ∈ l) (hclear : ∀ s', f p s' j = clearNS (s' j))
    (hall : ∀ q ∈ l, ∀ s', f q s' j = s' j ∨ f q s' j = clearNS (s' j)) :
    ∀ s, resetList f l s j = clearNS (s j) := by
  induction l with
  | nil => exact absurd hp (List.not_mem_nil p)
  | cons q rest ih =>
    intro s
    have hallrest := fun q2 hq2 s' => hall q2 (List.mem_cons_of_mem _ hq2) s'
    rcases List.mem_cons.mp hp with rfl | hprest
    · rw [resetList]
      rcases resetList_pc f rest j hallrest (f p s) with hr | hr <;> rw [hr, hclear s]
      exact clearNS_idem (s j)
    · rw [resetList]
      have := ih hprest hallrest (f q s)
      rw [this]
      rcases hall q (List.mem_cons_self _ _) s with hq | hq <;> rw [hq]
      exact clearNS_idem (s j)

theorem resetNode_clears (g : Graph) :
    ∀ (fuel i : Nat), i < fuel → ∀ (s : GState) (j : Nat),
      Reach g i j → g.kind j = VKind.random → resetNode g fuel i s j = clearNS (s j) := by
  intro fuel
  induction fuel with
  | zero => intro i h; omega
  | succ fuel ih =>
    intro i hi s j hr hkj
    simp only [resetNode]
    by_cases hk : g.kind i = VKind.deterministic
    · rw [if_pos hk]
      rcases Reach.cases_head hr with rfl | ⟨p, hp, _⟩
      · rw [hk] at hkj
        exact VKind.noConfusion hkj
      · rw [g.detNoParents i hk] at hp
        exact absurd hp (List.not_mem_nil p)
    · rw [if_neg hk]
      have hall : ∀ q ∈ g.parents i, ∀ s',
          resetNode g fuel q s' j = s' j ∨ resetNode g fuel q s' j = clearNS (s' j) := by
        intro q hq s'
        by_cases hqr : Reach g q j ∧ g.kind j = VKind.random
        · exact Or.inr (ih q (by have := g.parentsWf i q hq; omega) s' j hqr.1 hqr.2)
        · exact Or.inl (resetNode_frame g fuel q s' j hqr)
      rcases Reach.cases_head hr with rfl | ⟨p, hp, hpr⟩
      · have hframe : ∀ q ∈ g.parents j, ∀ s', resetNode g fuel q s' j = s' j := by
          intro q hq s'
          apply resetNode_frame
          rintro ⟨hqr, _⟩
          have h1 : j ≤ q := hqr.le
          have h2 : q < j := g.parentsWf j q hq
          omega
        rw [resetList_pointwise (fun p s' => resetNode g fuel p s') (g.parents j) j hframe]
        simp
      · have hclear : ∀ s', resetNode g fuel p s' j = clearNS (s' j) := by
          intro s'
          exact ih p (by have := g.parentsWf i p hp; omega) s' j hpr hkj
        have hji : j ≠ i := by
          intro he
          have h1 : i ≤ p := he ▸ hpr.le
          have h2 : p < i := g.parentsWf i p hp
          omega
        rw [resetList_clears_of_mem (fun p2 s' => resetNode g fuel p2 s') (g.parents i)
          j p hp hclear hall]
        simp [hji]

theorem modelReset_clears (g : Graph) (fuel : Nat) (roots : List Nat) (s : GState) (j : Nat)
    (hfuel : ∀ r ∈ roots, r < fuel) (hreach : ∃ r ∈ roots, Reach g r j)
    (hkj : g.kind j = VKind.random) : modelReset g fuel roots s j = clearNS (s j) := by
  obtain ⟨r, hrroots, hr⟩ := hreach
  apply resetList_clears_of_mem _ _ _ r hrroots
  · intro s'
    exact resetNode_clears g fuel r (hfuel r hrroots) s' j hr hkj
  · intro q hq s'
    by_cases hqr : Reach g q j ∧ g.kind j = VKind.random
    · exact Or.inr (resetNode_clears g fuel q (hfuel q hq) s' j hqr.1 hqr.2)
    · exact Or.inl (resetNode_frame g fuel q s' j hqr)

theorem modelReset_frame (g : Graph) (fuel : Nat) (roots : List Nat) (s : GState) (j : Nat)
    (h : ∀ r ∈ roots, ¬(Reach g r j ∧ g.kind j = VKind.random)) :
    modelReset g fuel roots s j = s j :=
  resetList_pointwise _ _ _ (fun r hr s' => resetNode_frame g fuel r s' j (h r hr)) s

end ResetLemmas

/-- C2: both externally visible model entry points — `calculate_log_probability`
and the `_get_sample` behind `get_sample`/`get_posterior_sample` — end with a
full `reset`, after which every `RandomVariable` reachable by following
`parents` from the declared roots has empty `samples`, a cleared `_evaluated`
flag and no `_current_value`; the same holds for `Variable.get_sample` on a
single root. -/
theorem c2_reset_on_exit (g : Graph) (env : Env) (roots : List Nat) (vals : Assignment)
    (fuel : Nat) (s : GState) (hfuel : ∀ r ∈ roots, r < fuel) :
    (∀ (total : Int) (s' : GState), modelCLP g env roots vals fuel s = some (total, s') →
      ∀ j, (∃ r ∈ roots, Reach g r j) → g.kind j = VKind.random →
        (s' j).samples = [] ∧ (s' j).evaluated = false ∧ (s' j).currentValue = none) ∧
    (∀ (n : Nat) (observed : Bool) (d : Assignment) (s' : GState) (t : List Nat),
      modelGetSample g env roots n observed vals fuel s = some (d, s', t) →
      ∀ j, (∃ r ∈ roots, Reach g r j) → g.kind j = VKind.random →
        (s' j).samples = [] ∧ (s' j).evaluated = false ∧ (s' j).currentValue = none) ∧
    (∀ (i n : Nat) (out : Option Val) (s' : GState) (t : List Nat), i < fuel →
      varGetSample g env i n vals fuel s = some (out, s', t) →
      ∀ j, Reach g i j → g.kind j = VKind.random →
        (s' j).samples = [] ∧ (s' j).evaluated = false ∧ (s' j).currentValue = none) := by
  refine ⟨?_, ?_, ?_⟩
  · intro total s' hm j hreach hkj
    unfold modelCLP at hm
    cases hcl : clpList (fun i s' => clp g env vals false fuel i s') roots s with
    | none => rw [hcl] at hm; exact Option.noConfusion hm
    | some pr =>
      obtain ⟨t0, s1⟩ := pr
      rw [hcl] at hm
      injection hm with hm
      injection hm with _ hm2
      rw [← hm2, modelReset_clears g fuel roots s1 j hfuel hreach hkj]
      exact ⟨rfl, rfl, rfl⟩
  · intro n observed d s' t hm j hreach hkj
    unfold modelGetSample at hm
    cases hrl : runList (fun i s' => sampleNode g env n false observed vals fuel i s') roots s with
    | none => rw [hrl] at hm; exact Option.noConfusion hm
    | some pr =>
      obtain ⟨d0, s1, t0⟩ := pr
      rw [hrl] at hm
      injection hm with hm
      injection hm with _ hm2
      injection hm2 with hm2 _
      rw [← hm2, modelReset_clears g fuel roots s1 j hfuel hreach hkj]
      exact ⟨rfl, rfl, rfl⟩
  · intro i n out s' t hi hm j hreach hkj
    unfold varGetSample at hm
    cases hsn : sampleNode g env n false ((s i).observed) vals fuel i s with
    | none => rw [hsn] at hm; exact Option.noConfusion hm
    | some pr =>
      obtain ⟨d0, s1, t0⟩ := pr
      rw [hsn] at hm
      injection hm with hm
      injection hm with _ hm2
      injection hm2 with hm2 _
      rw [← hm2, resetNode_clears g fuel i hi s1 j hreach hkj]
      exact ⟨rfl, rfl, rfl⟩

section LogProbWrites

theorem evalNS_idem (ns : NodeState) : evalNS (evalNS ns) = evalNS ns := rfl

theorem kind_eq_random {g : Graph} {i : Nat} (h : ¬g.kind i = VKind.deterministic) :
    g.kind i = VKind.random := by
  cases h2 : g.kind i
  · exact absurd h2 h
  · rfl

/-- `calculate_log_probability` only ever writes `_evaluated` flags, and only
on random variables reachable from the evaluated node. -/
theorem clpList_writes (g : Graph) (f : Nat → GState → Option (Int × GState)) (l : List Nat)
    (hf : ∀ p ∈ l, ∀ (s : GState) (r : Int) (s' : GState), f p s = some (r, s') →
      ∀ j, s' j = s j ∨
        (Reach g p j ∧ g.kind j = VKind.random ∧ s' j = evalNS (s j))) :
    ∀ (s : GState) (r : Int) (s' : GState), clpList f l s = some (r, s') →
      ∀ j, s' j = s j ∨
        ((∃ p ∈ l, Reach g p j) ∧ g.kind j = VKind.random ∧ s' j = evalNS (s j)) := by
  induction l with
  | nil =>
    intro s r s' h j
    simp only [clpList] at h
    injection h with h
    injection h with _ h2
    rw [← h2]
    exact Or.inl rfl
  | cons p rest ih =>
    intro s r s' h j
    simp only [clpList] at h
    split at h
    · exact Option.noConfusion h
    · rename_i r1 s1 h1
      split at h
      · exact Option.noConfusion h
      · rename_i r2 s2 h2
        injection h with h
        injection h with _ hs
        rw [← hs]
        have hstep1 := hf p (List.mem_cons_self _ _) s r1 s1 h1 j
        have hstep2 := ih (fun q hq => hf q (List.mem_cons_of_mem _ hq)) s1 r2 s2 h2 j
        rcases hstep2 with h2j | ⟨⟨q, hq, hqr⟩, hkj, h2j⟩
        · rcases hstep1 with h1j | ⟨hpr, hkj, h1j⟩
          · exact Or.inl (h2j.trans h1j)
          · exact Or.inr ⟨⟨p, List.mem_cons_self _ _, hpr⟩, hkj, h2j.trans h1j⟩
        · rcases hstep1 with h1j | ⟨hpr, hkj2, h1j⟩
          · exact Or.inr ⟨⟨q, List.mem_cons_of_mem _ hq, hqr⟩, hkj,
              h2j.trans (by rw [h1j])⟩
          · exact Or.inr ⟨⟨p, List.mem_cons_self _ _, hpr⟩, hkj2,
              h2j.trans (by rw [h1j, evalNS_idem])⟩

theorem clp_writes (g : Graph) (env : Env) (vals : Assignment) (reev : Bool) :
    ∀ (fuel i : Nat) (s : GState) (r : Int) (s' : GState),
      clp g env vals reev fuel i s = some (r, s') →
      ∀ j, s' j = s j ∨
        (Reach g i j ∧ g.kind j = VKind.random ∧ s' j = evalNS (s j)) := by
  intro fuel
  induction fuel with
  | zero => intro i s r s' h; exact absurd h (by simp [clp])
  | succ fuel ih =>
    intro i s r s' h j
    simp only [clp] at h
    by_cases hk : g.kind i = VKind.deterministic
    · rw [if_pos hk] at h
      injection h with h
      injection h with _ hs
      rw [← hs]
      exact Or.inl rfl
    · rw [if_neg hk] at h
      have hki := kind_eq_random hk
      by_cases hev : (s i).evaluated = true ∧ reev = false
      · rw [if_pos hev] at h
        injection h with h
        injection h with _ hs
        rw [← hs]
        exact Or.inl rfl
      · rw [if_neg hev] at h
        split at h
        · exact Option.noConfusion h
        · rename_i detl hdet
          split at h
          · exact Option.noConfusion h
          · rename_i psum s2 hcl
            injection h with h
            injection h with _ hs
            rw [← hs]
            have hwr := clpList_writes g _ (g.parents i)
              (fun p _ s0 r0 s0' h0 => ih p s0 r0 s0' h0)
              (setEvaluated s i) psum s2 hcl j
            have hse : setEvaluated s i j = if j = i then evalNS (s j) else s j := rfl
            by_cases hji : j = i
            · subst hji
              rw [if_pos rfl] at hse
              rcases hwr with hw | ⟨_, _, hw⟩
              · rw [hw, hse]
                exact Or.inr ⟨Reach.refl j, hki, rfl⟩
              · rw [hw, hse]
                exact Or.inr ⟨Reach.refl j, hki, rfl⟩
            · rw [if_neg hji] at hse
              rcases hwr with hw | ⟨⟨p, hp, hpr⟩, hkj, hw⟩
              · rw [hw, hse]
                exact Or.inl rfl
              · rw [hw, hse]
                exact Or.inr ⟨Reach.trans' (Reach.parent hp) hpr, hkj, rfl⟩

/-- From a clean state, `ProbabilisticModel.calculate_log_probability` hands
back exactly the state it started from: the memo flags it sets are cleared
again by the reset on exit. -/
theorem modelCLP_state_id (g : Graph) (env : Env) (roots : List Nat) (vals : Assignment)
    (fuel : Nat) (s : GState) (hfuel : ∀ r ∈ roots, r < fuel)
    (hclean : CleanOn g roots s) :
    ∀ (r : Int) (s' : GState), modelCLP g env roots vals fuel s = some (r, s') → s' = s := by
  intro r s' h
  unfold modelCLP at h
  cases hcl : clpList (fun i s2 => clp g env vals false fuel i s2) roots s with
  | none => rw [hcl] at h; exact Option.noConfusion h
  | some pr =>
    obtain ⟨t0, s1⟩ := pr
    rw [hcl] at h
    injection h with h
    injection h with _ hs
    have hwr := clpList_writes g _ roots
      (fun p _ s0 r0 s0' h0 => clp_writes g env vals false fuel p s0 r0 s0' h0)
      s t0 s1 hcl
    rw [← hs]
    funext j
    by_cases hj : (∃ rt ∈ roots, Reach g rt j) ∧ g.kind j = VKind.random
    · have hclear := modelReset_clears g fuel roots s1 j hfuel hj.1 hj.2
      rw [hclear]
      obtain ⟨h1, h2, h3⟩ := hclean j hj.1 hj.2
      rcases hwr j with hw | ⟨_, _, hw⟩
      · rw [hw]
        exact clearNS_eq_self h1 h2 h3
      · rw [hw]
        have hcc : clearNS (evalNS (s j)) = clearNS (s j) := rfl
        rw [hcc]
        exact clearNS_eq_self h1 h2 h3
    · have hframe := modelReset_frame g fuel roots s1 j (by
        intro rt hrt hc
        exact hj ⟨⟨rt, hrt, hc.1⟩, hc.2⟩)
      rw [hframe]
      rcases hwr j with hw | ⟨⟨p, hp, hpr⟩, hkj, hw⟩
      · exact hw
      · exact absurd ⟨⟨p, hp, hpr⟩, hkj⟩ hj

end LogProbWrites

/-- C5: from a clean state — which is what the reset-on-exit contract always
hands the caller — calling `calculate_log_probability` twice in sequence with
the same value assignment returns the same total both times (indeed the first
call returns the very state it started from, so the second call is the same
computation). -/
theorem c5_clp_idempotent (g : Graph) (env : Env) (roots : List Nat) (vals : Assignment)
    (fuel : Nat) (s : GState) (hfuel : ∀ r ∈ roots, r < fuel)
    (hclean : CleanOn g roots s) :
    ∀ (r : Int) (s' : GState), modelCLP g env roots vals fuel s = some (r, s') →
      modelCLP g env roots vals fuel s' = some (r, s') := by
  intro r s' h
  have hid := modelCLP_state_id g env roots vals fuel s hfuel hclean r s' h
  rw [hid] at h ⊢
  exact h

/-- Witness for C5 on the diamond model from a clean state. -/
theorem c5_clp_idempotent_witness :
    ∃ (r : Int) (s' : GState),
      modelCLP diamondG cEnv [3] emptyAssignment 4 cState = some (r, s') ∧
      modelCLP diamondG cEnv [3] emptyAssignment 4 s' = some (r, s') := by
  cases hcomp : modelCLP diamondG cEnv [3] emptyAssignment 4 cState with
  | none =>
    have hs : (modelCLP diamondG cEnv [3] emptyAssignment 4 cState).isSome = true := rfl
    rw [hcomp] at hs
    exact Bool.noConfusion hs
  | some pr =>
    obtain ⟨r, s'⟩ := pr
    refine ⟨r, s', rfl, ?_⟩
    exact c5_clp_idempotent diamondG cEnv [3] emptyAssignment 4 cState
      (by intro rt hrt; simp at hrt; omega)
      (by intro j _ _; exact ⟨rfl, rfl, rfl⟩) r s' hcomp

/-- Witness for C2: on the diamond, a log-probability pass from a fully dirty
state hands back a state whose ancestor node 0 is cleared. -/
theorem c2_reset_on_exit_witness :
    ∃ (total : Int) (s' : GState),
      modelCLP diamondG cEnv [3] emptyAssignment 4 dirtyState = some (total, s') ∧
      (s' 0).samples = [] ∧ (s' 0).evaluated = false ∧ (s' 0).currentValue = none := by
  cases hcomp : modelCLP diamondG cEnv [3] emptyAssignment 4 dirtyState with
  | none =>
    have hs : (modelCLP diamondG cEnv [3] emptyAssignment 4 dirtyState).isSome = true := rfl
    rw [hcomp] at hs
    exact Bool.noConfusion hs
  | some pr =>
    obtain ⟨total, s'⟩ := pr
    have h31 : Reach diamondG 3 1 :=
      Reach.step (Reach.refl 3) (show (1 : Nat) ∈ diamondG.parents 3 by decide)
    have hreach : Reach diamondG 3 0 :=
      Reach.step h31 (show (0 : Nat) ∈ diamondG.parents 1 by decide)
    have := (c2_reset_on_exit diamondG cEnv [3] emptyAssignment 4 dirtyState
      (by intro r hr; simp at hr; omega)).1 total s' hcomp 0 ⟨3, by simp, hreach⟩ rfl
    exact ⟨total, s', rfl, this⟩

section SampleTrace

theorem pushSample_k (s : GState) (j : Nat) (v : Val) (k : Nat) :
    ((pushSample s j v) k).hasObservedValue = (s k).hasObservedValue ∧
    ((pushSample s j v) k).hasRandomDataset = (s k).hasRandomDataset ∧
    ((pushSample s j v) k).dataset = (s k).dataset := by
  simp only [pushSample]
  by_cases hkj : k = j <;> simp [hkj]

theorem AvoidInv.push {i : Nat} {s : GState} (h : AvoidInv i s) (j : Nat) (v : Val) :
    AvoidInv i (pushSample s j v) := by
  constructor
  · rcases h.1 with h1 | h1
    · exact Or.inl ((pushSample_k s j v i).1.trans h1)
    · exact Or.inr ((pushSample_k s j v i).2.1.trans h1)
  · intro k
    rw [(pushSample_k s j v k).2.2]
    exact h.2 k

theorem runList_avoids (i : Nat) (f : Nat → GState → Option (Assignment × GState × List Nat))
    (hf : ∀ p s d s' t, AvoidInv i s → f p s = some (d, s', t) → i ∉ t ∧ AvoidInv i s') :
    ∀ (l : List Nat) (s : GState) (d : Assignment) (s' : GState) (t : List Nat),
      AvoidInv i s → runList f l s = some (d, s', t) → i ∉ t ∧ AvoidInv i s' := by
  intro l
  induction l with
  | nil =>
    intro s d s' t hinv h
    simp only [runList] at h
    injection h with h
    injection h with _ h2
    injection h2 with h2 h3
    rw [← h3, ← h2]
    exact ⟨List.not_mem_nil i, hinv⟩
  | cons p rest ih =>
    intro s d s' t hinv h
    simp only [runList] at h
    split at h
    · exact Option.noConfusion h
    · rename_i d1 s1 t1 h1
      split at h
      · exact Option.noConfusion h
      · rename_i d2 s2 t2 h2
        injection h with h
        injection h with _ h'
        injection h' with hs ht
        obtain ⟨hn1, hinv1⟩ := hf p s d1 s1 t1 hinv h1
        obtain ⟨hn2, hinv2⟩ := ih s1 d2 s2 t2 hinv1 h2
        constructor
        · rw [← ht]
          intro hc
          rcases List.mem_append.mp hc with hc | hc
          · exact hn1 hc
          · exact hn2 hc
        · rw [← hs]
          exact hinv2

/-- In observed mode, a node protected by `AvoidInv` never has its own
distribution drawn from: its id never enters the draw trace. -/
theorem sampleNode_avoids (g : Graph) (env : Env) (n : Nat) (resample : Bool)
    (vals : Assignment) (i : Nat) :
    ∀ (fuel j : Nat) (s : GState) (d : Assignment) (s' : GState) (t : List Nat),
      AvoidInv i s → sampleNode g env n resample true vals fuel j s = some (d, s', t) →
      i ∉ t ∧ AvoidInv i s' := by
  intro fuel
  induction fuel with
  | zero => intro j s d s' t _ h; exact absurd h (by simp [sampleNode])
  | succ fuel ih =>
    intro j s d s' t hinv h
    simp only [sampleNode] at h
    by_cases hk : g.kind j = VKind.deterministic
    · rw [if_pos hk] at h
      split at h
      · exact Option.noConfusion h
      · rename_i v hv
        split at h <;>
        · injection h with h
          injection h with _ h'
          injection h' with hs ht
          rw [← ht, ← hs]
          exact ⟨List.not_mem_nil i, hinv⟩
    · rw [if_neg hk] at h
      split at h
      · injection h with h
        injection h with _ h'
        injection h' with hs ht
        rw [← ht, ← hs]
        exact ⟨List.not_mem_nil i, hinv⟩
      · rw [if_neg (by simp : ¬(true = false))] at h
        by_cases hov : (s j).hasObservedValue = true
        · rw [if_pos hov] at h
          split at h
          · rename_i v hv
            injection h with h
            injection h with _ h'
            injection h' with hs ht
            rw [← ht, ← hs]
            exact ⟨List.not_mem_nil i, hinv⟩
          · exact Option.noConfusion h
        · rw [if_neg hov] at h
          by_cases hrd : (s j).hasRandomDataset = true
          · rw [if_pos hrd] at h
            split at h
            · rename_i d2 hd2
              unfold sampleMain at h
              split at h
              · exact Option.noConfusion h
              · rename_i pd s1 t1 hrl
                obtain ⟨ht1, hinv1⟩ := runList_avoids i _
                  (fun p s0 d0 s0' t0 hinv0 h0 => ih p s0 d0 s0' t0 hinv0 h0)
                  (g.parents d2) s pd s1 t1 hinv hrl
                injection h with h
                injection h with _ h'
                injection h' with hs ht
                have hd2i : d2 ≠ i := by
                  intro he
                  exact hinv.2 j (he ▸ hd2)
                constructor
                · rw [← ht]
                  intro hc
                  rcases List.mem_append.mp hc with hc | hc
                  · exact ht1 hc
                  · exact hd2i (List.mem_singleton.mp hc).symm
                · rw [← hs]
                  exact hinv1.push j _
            · exact Option.noConfusion h
          · rw [if_neg hrd] at h
            have hji : j ≠ i := by
              intro he
              rcases hinv.1 with h1 | h1
              · exact hov (he ▸ h1)
              · exact hrd (he ▸ h1)
            unfold sampleMain at h
            split at h
            · exact Option.noConfusion h
            · rename_i pd s1 t1 hrl
              obtain ⟨ht1, hinv1⟩ := runList_avoids i _
                (fun p s0 d0 s0' t0 hinv0 h0 => ih p s0 d0 s0' t0 hinv0 h0)
                (g.parents j) s pd s1 t1 hinv hrl
              injection h with h
              injection h with _ h'
              injection h' with hs ht
              constructor
              · rw [← ht]
                intro hc
                rcases List.mem_append.mp hc with hc | hc
                · exact ht1 hc
                · exact hji (List.mem_singleton.mp hc).symm
              · rw [← hs]
                exact hinv1.push j _

end SampleTrace

/-- C3 (amended): once a `RandomVariable` is observed, sampling it through an
entry point that runs in observed mode never draws from its own
distribution: (1) `Variable.get_sample` on a node observed with a fixed
tensor (and a clean cache) returns exactly the bound tensor with an empty
draw trace; (2) `Variable.get_sample` on a node observed with a random
dataset draws through the dataset variable — the final draw of the trace is
the dataset's and the node's own id never appears; (3) sampling any model
over the node in observed mode never draws from the node's distribution.
Model-level `get_sample`, however, passes `observed=False` and does re-sample
the node's own distribution (see the counterexample). -/
theorem c3_observed_value_sampling :
    (∀ (g : Graph) (env : Env) (i n : Nat) (vals : Assignment) (fuel : Nat)
      (s : GState) (v : Val),
      g.kind i = VKind.random → (s i).observed = true → (s i).hasObservedValue = true →
      (s i).observedValue = some v → (s i).samples = [] →
      varGetSample g env i n vals (fuel + 1) s =
        some (some v, resetNode g (fuel + 1) i s, [])) ∧
    (∀ (g : Graph) (env : Env) (i n : Nat) (vals : Assignment) (fuel : Nat)
      (s : GState) (dvar : Nat),
      g.kind i = VKind.random → (s i).observed = true → (s i).hasObservedValue = false →
      (s i).hasRandomDataset = true → (s i).dataset = some dvar →
      (∀ k, (s k).dataset ≠ some i) → (s i).samples = [] →
      ∀ (out : Option Val) (s2 : GState) (t : List Nat),
        varGetSample g env i n vals (fuel + 1) s = some (out, s2, t) →
        i ∉ t ∧ t.getLast? = some dvar) ∧
    (∀ (g : Graph) (env : Env) (roots : List Nat) (i n : Nat) (vals : Assignment)
      (fuel : Nat) (s : GState),
      ((s i).hasObservedValue = true ∨ (s i).hasRandomDataset = true) →
      (∀ k, (s k).dataset ≠ some i) →
      ∀ (d : Assignment) (s2 : GState) (t : List Nat),
        modelGetSample g env roots n true vals fuel s = some (d, s2, t) → i ∉ t) := by
  refine ⟨?_, ?_, ?_⟩
  · intro g env i n vals fuel s v hk hobs hov hval hsamp
    have hkd : ¬ g.kind i = VKind.deterministic := by
      rw [hk]; intro hc; exact VKind.noConfusion hc
    have hsn : sampleNode g env n false true vals (fuel + 1) i s =
        some (single i v, s, []) := by
      simp only [sampleNode, if_neg hkd, hsamp, List.getLast?_nil, hov, hval]
      simp
    unfold varGetSample
    rw [hobs, hsn]
    simp [single]
  · intro g env i n vals fuel s dvar hk hobs hov hrd hds hnds hsamp out s2 t h
    have hkd : ¬ g.kind i = VKind.deterministic := by
      rw [hk]; intro hc; exact VKind.noConfusion hc
    have hstep : sampleNode g env n false true vals (fuel + 1) i s =
        sampleMain g env n (fun p s' => sampleNode g env n false true vals fuel p s')
          i dvar s := by
      simp [sampleNode, hkd, hsamp, hov, hrd, hds]
    unfold varGetSample at h
    rw [hobs, hstep] at h
    cases hsm : sampleMain g env n
        (fun p s' => sampleNode g env n false true vals fuel p s') i dvar s with
    | none => rw [hsm] at h; exact Option.noConfusion h
    | some pr =>
      obtain ⟨d0, s1, t1⟩ := pr
      rw [hsm] at h
      injection h with h
      injection h with _ h'
      injection h' with _ ht
      unfold sampleMain at hsm
      split at hsm
      · exact Option.noConfusion hsm
      · rename_i pd s1' t1' hrl
        obtain ⟨ht1, _⟩ := runList_avoids i _
          (fun p s0 d0' s0' t0 hinv0 h0 =>
            sampleNode_avoids g env n false vals i fuel p s0 d0' s0' t0 hinv0 h0)
          (g.parents dvar) s pd s1' t1' ⟨Or.inr hrd, hnds⟩ hrl
        injection hsm with hsm
        injection hsm with _ hsm'
        injection hsm' with _ htt
        rw [← ht, ← htt]
        constructor
        · intro hc
          rcases List.mem_append.mp hc with hc | hc
          · exact ht1 hc
          · have hdi : dvar ≠ i := by
              intro he
              exact hnds i (he ▸ hds)
            exact hdi (List.mem_singleton.mp hc).symm
        · exact List.getLast?_concat _
  · intro g env roots i n vals fuel s hinv1 hinv2 d s2 t h
    unfold modelGetSample at h
    cases hrl : runList (fun j s' => sampleNode g env n false true vals fuel j s') roots s with
    | none => rw [hrl] at h; exact Option.noConfusion h
    | some pr =>
      obtain ⟨d0, s1, t0⟩ := pr
      rw [hrl] at h
      injection h with h
      injection h with _ h'
      injection h' with _ ht
      obtain ⟨hn, _⟩ := runList_avoids i _
        (fun p s0 d0' s0' t0' hinv0 h0 =>
          sampleNode_avoids g env n false vals i fuel p s0 d0' s0' t0' hinv0 h0)
        roots s d0 s1 t0 ⟨hinv1, hinv2⟩ hrl
      rw [← ht]
      exact hn

section SampleWrites

theorem push_comp (ns : NodeState) (e1 e2 : List Val) :
    { ({ ns with samples := ns.samples ++ e1 }) with
        samples := ({ ns with samples := ns.samples ++ e1 }).samples ++ e2 } =
      { ns with samples := ns.samples ++ (e1 ++ e2) } := by
  simp

theorem nd_of_writes {s s' : GState} (hnd : NoDatasets s)
    (hw : ∀ k, s' k = s k ∨ ∃ ext, s' k = { s k with samples := (s k).samples ++ ext }) :
    NoDatasets s' := by
  intro k
  rcases hw k with h | ⟨ext, h⟩ <;> rw [h]
  · exact hnd k
  · exact hnd k

/-- Sampling only appends draws to `samples` stacks, and only on random
variables reachable from the sampled node (given no random datasets). -/
theorem runList_writes (g : Graph) (f : Nat → GState → Option (Assignment × GState × List Nat))
    (l : List Nat)
    (hf : ∀ p ∈ l, ∀ (s : GState) (d : Assignment) (s' : GState) (t : List Nat),
      NoDatasets s → f p s = some (d, s', t) →
      ∀ k, s' k = s k ∨ (Reach g p k ∧ g.kind k = VKind.random ∧
        ∃ ext, s' k = { s k with samples := (s k).samples ++ ext })) :
    ∀ (s : GState) (d : Assignment) (s' : GState) (t : List Nat),
      NoDatasets s → runList f l s = some (d, s', t) →
      ∀ k, s' k = s k ∨ ((∃ p ∈ l, Reach g p k) ∧ g.kind k = VKind.random ∧
        ∃ ext, s' k = { s k with samples := (s k).samples ++ ext }) := by
  induction l with
  | nil =>
    intro s d s' t _ h k
    simp only [runList] at h
    injection h with h
    injection h with _ h'
    injection h' with hs _
    rw [← hs]
    exact Or.inl rfl
  | cons p rest ih =>
    intro s d s' t hnd h k
    simp only [runList] at h
    split at h
    · exact Option.noConfusion h
    · rename_i d1 s1 t1 h1
      split at h
      · exact Option.noConfusion h
      · rename_i d2 s2 t2 h2
        injection h with h
        injection h with _ h'
        injection h' with hs _
        rw [← hs]
        have hw1 := hf p (List.mem_cons_self _ _) s d1 s1 t1 hnd h1
        have hnd1 : NoDatasets s1 :=
          nd_of_writes hnd (fun k2 => (hw1 k2).elim Or.inl (fun hc => Or.inr hc.2.2))
        have hw2 := ih (fun q hq => hf q (List.mem_cons_of_mem _ hq)) s1 d2 s2 t2 hnd1 h2 k
        rcases hw2 with hw2 | ⟨⟨q, hq, hqr⟩, hkk, e2, hw2⟩
        · rcases hw1 k with hw1 | ⟨hpr, hkk, e1, hw1⟩
          · exact Or.inl (hw2.trans hw1)
          · exact Or.inr ⟨⟨p, List.mem_cons_self _ _, hpr⟩, hkk, e1, hw2.trans hw1⟩
        · rcases hw1 k with hw1 | ⟨hpr, hkk2, e1, hw1⟩
          · refine Or.inr ⟨⟨q, List.mem_cons_of_mem _ hq, hqr⟩, hkk, e2, ?_⟩
            rw [hw2, hw1]
          · refine Or.inr ⟨⟨p, List.mem_cons_self _ _, hpr⟩, hkk2, e1 ++ e2, ?_⟩
            rw [hw2, hw1]
            exact push_comp (s k) e1 e2

theorem sampleNode_writes (g : Graph) (env : Env) (n : Nat) (resample observed : Bool)
    (vals : Assignment) :
    ∀ (fuel i : Nat) (s : GState) (d : Assignment) (s' : GState) (t : List Nat),
      NoDatasets s → sampleNode g env n resample observed vals fuel i s = some (d, s', t) →
      ∀ k, s' k = s k ∨ (Reach g i k ∧ g.kind k = VKind.random ∧
        ∃ ext, s' k = { s k with samples := (s k).samples ++ ext }) := by
  intro fuel
  induction fuel with
  | zero => intro i s d s' t _ h; exact absurd h (by simp [sampleNode])
  | succ fuel ih =>
    intro i s d s' t hnd h k
    have hmain : ∀ (j : Nat),
        sampleMain g env n
          (fun p s2 => sampleNode g env n resample observed vals fuel p s2) i j s =
          some (d, s', t) →
        Reach g i j →
        (s' k = s k ∨ (Reach g i k ∧ g.kind k = VKind.random ∧
          ∃ ext, s' k = { s k with samples := (s k).samples ++ ext })) ∨
        (k = i ∧ ∃ s1 : GState, (s1 k = s k ∨ ((∃ p ∈ g.parents j, Reach g p k) ∧
            g.kind k = VKind.random ∧
            ∃ ext, s1 k = { s k with samples := (s k).samples ++ ext })) ∧
          ∃ v, s' k = { s1 k with samples := (s1 k).samples ++ [v] }) := by
      intro j hm hreach
      unfold sampleMain at hm
      split at hm
      · exact Option.noConfusion hm
      · rename_i pd s1 t1 hrl
        have hw1 := runList_writes g _ (g.parents j)
          (fun p _ s0 d0 s0' t0 hnd0 h0 => ih p s0 d0 s0' t0 hnd0 h0)
          s pd s1 t1 hnd hrl
        injection hm with hm
        injection hm with _ hm'
        injection hm' with hs _
        by_cases hki : k = i
        · subst hki
          right
          refine ⟨rfl, s1, hw1 k, ?_⟩
          refine ⟨env.draw j (fun p => if p ∈ g.parents j then pd p else none) n, ?_⟩
          rw [← hs]
          simp [pushSample]
        · left
          rcases hw1 k with hw | ⟨⟨p, hp, hpr⟩, hkk, e1, hw⟩
          · refine Or.inl ?_
            rw [← hs]
            simp only [pushSample, if_neg hki]
            exact hw
          · refine Or.inr ⟨Reach.trans' (Reach.trans' hreach (Reach.parent hp)) hpr,
              hkk, e1, ?_⟩
            rw [← hs]
            simp only [pushSample, if_neg hki]
            exact hw
    simp only [sampleNode] at h
    by_cases hk : g.kind i = VKind.deterministic
    · rw [if_pos hk] at h
      split at h
      · exact Option.noConfusion h
      · rename_i v hv
        split at h <;>
        · injection h with h
          injection h with _ h'
          injection h' with hs _
          rw [← hs]
          exact Or.inl rfl
    · rw [if_neg hk] at h
      have hki := kind_eq_random hk
      have hfinish : ∀ (j : Nat),
          sampleMain g env n
            (fun p s2 => sampleNode g env n resample observed vals fuel p s2) i j s =
            some (d, s', t) →
          Reach g i j →
          s' k = s k ∨ (Reach g i k ∧ g.kind k = VKind.random ∧
            ∃ ext, s' k = { s k with samples := (s k).samples ++ ext }) := by
        intro j hm hreach
        rcases hmain j hm hreach with hres | ⟨hkieq, s1, hw1, v, hpush⟩
        · exact hres
        · subst hkieq
          rcases hw1 with hw1 | ⟨⟨p, hp, hpr⟩, hkk, e1, hw1⟩
          · refine Or.inr ⟨Reach.refl k, hki, [v], ?_⟩
            rw [hpush, hw1]
          · refine Or.inr ⟨Reach.refl k, hki, e1 ++ [v], ?_⟩
            rw [hpush, hw1]
            exact push_comp (s k) e1 [v]
      split at h
      · injection h with h
        injection h with _ h'
        injection h' with hs _
        rw [← hs]
        exact Or.inl rfl
      · by_cases hobs : observed = false
        · rw [if_pos hobs] at h
          split at h
          · rename_i v hv
            injection h with h
            injection h with _ h'
            injection h' with hs _
            rw [← hs]
            exact Or.inl rfl
          · exact hfinish i h (Reach.refl i)
        · rw [if_neg hobs] at h
          by_cases hov : (s i).hasObservedValue = true
          · rw [if_pos hov] at h
            split at h
            · rename_i v hv
              injection h with h
              injection h with _ h'
              injection h' with hs _
              rw [← hs]
              exact Or.inl rfl
            · exact Option.noConfusion h
          · rw [if_neg hov] at h
            have hrd : ¬ (s i).hasRandomDataset = true := by
              rw [hnd i]; simp
            rw [if_neg hrd] at h
            exact hfinish i h (Reach.refl i)

/-- From a clean dataset-free state, `ProbabilisticModel._get_sample` hands
back exactly the state it started from: the draws it caches are cleared again
by the reset on exit. -/
theorem modelGetSample_state_id (g : Graph) (env : Env) (roots : List Nat) (n : Nat)
    (observed : Bool) (vals : Assignment) (fuel : Nat) (s : GState)
    (hfuel : ∀ r ∈ roots, r < fuel) (hclean : CleanOn g roots s) (hnd : NoDatasets s) :
    ∀ (d : Assignment) (s' : GState) (t : List Nat),
      modelGetSample g env roots n observed vals fuel s = some (d, s', t) → s' = s := by
  intro d s' t h
  unfold modelGetSample at h
  cases hrl : runList (fun i s2 => sampleNode g env n false observed vals fuel i s2) roots s with
  | none => rw [hrl] at h; exact Option.noConfusion h
  | some pr =>
    obtain ⟨d0, s1, t0⟩ := pr
    rw [hrl] at h
    injection h with h
    injection h with _ h'
    injection h' with hs _
    have hw := runList_writes g _ roots
      (fun p _ s0 d2 s0' t2 hnd0 h0 =>
        sampleNode_writes g env n false observed vals fuel p s0 d2 s0' t2 hnd0 h0)
      s d0 s1 t0 hnd hrl
    rw [← hs]
    funext k
    by_cases hj : (∃ rt ∈ roots, Reach g rt k) ∧ g.kind k = VKind.random
    · have hclear := modelReset_clears g fuel roots s1 k hfuel hj.1 hj.2
      rw [hclear]
      obtain ⟨h1, h2, h3⟩ := hclean k hj.1 hj.2
      rcases hw k with hw1 | ⟨_, _, ext, hw1⟩
      · rw [hw1]
        exact clearNS_eq_self h1 h2 h3
      · rw [hw1]
        have hcc : clearNS { s k with samples := (s k).samples ++ ext } = clearNS (s k) := rfl
        rw [hcc]
        exact clearNS_eq_self h1 h2 h3
    · have hframe := modelReset_frame g fuel roots s1 k (by
        intro rt hrt hc
        exact hj ⟨⟨rt, hrt, hc.1⟩, hc.2⟩)
      rw [hframe]
      rcases hw k with hw1 | ⟨⟨p, hp, hpr⟩, hkk, _, _⟩
      · exact hw1
      · exact absurd ⟨⟨p, hp, hpr⟩, hkk⟩ hj

end SampleWrites

/-- C9: with a posterior model attached and `method="ELBO"`, the estimator
computes exactly the claimed pipeline — one observed-mode draw from the
observed submodel, `nsamples` unobserved posterior draws, the posterior's
log-probability on its own samples, the joint's log-probability on the
observed draw merged with the translated posterior samples, and the mean of
the difference — and, thanks to the reset-on-exit discipline, each step sees
exactly the same clean state `s`, so the sequential computation equals the
composition of the independently specified steps. -/
theorem c9_elbo_pipeline (g : Graph) (env : Env) (jointRoots obsRoots : List Nat)
    (post : PosteriorHandle) (nsamples fuel : Nat) (vals : Assignment) (s : GState)
    (hfo : ∀ r ∈ obsRoots, r < fuel) (hfp : ∀ r ∈ post.roots, r < fuel)
    (hfj : ∀ r ∈ jointRoots, r < fuel)
    (hco : CleanOn g obsRoots s) (hcp : CleanOn g post.roots s)
    (hcj : CleanOn g jointRoots s) (hnd : NoDatasets s)
    (obsS postS : Assignment) (s1 s2 s3 s4 : GState) (t1 t2 : List Nat) (plp jlp : Int)
    (h1 : modelGetSample g env obsRoots 1 true emptyAssignment fuel s = some (obsS, s1, t1))
    (h2 : modelGetSample g env post.roots nsamples false vals fuel s = some (postS, s2, t2))
    (h3 : modelCLP g env post.roots postS fuel s = some (plp, s3))
    (h4 : modelCLP g env jointRoots (aunion obsS (post.translate postS)) fuel s =
      some (jlp, s4)) :
    estimateLogModelEvidence g env jointRoots obsRoots (some post) nsamples "ELBO"
        vals fuel s =
      some (Except.ok (env.fmean (jlp - plp), s)) := by
  have hid1 : s1 = s :=
    modelGetSample_state_id g env obsRoots 1 true emptyAssignment fuel s
      hfo hco hnd obsS s1 t1 h1
  have hid2 : s2 = s :=
    modelGetSample_state_id g env post.roots nsamples false vals fuel s
      hfp hcp hnd postS s2 t2 h2
  have hid3 : s3 = s :=
    modelCLP_state_id g env post.roots postS fuel s hfp hcp plp s3 h3
  have hid4 : s4 = s :=
    modelCLP_state_id g env jointRoots (aunion obsS (post.translate postS)) fuel s
      hfj hcj jlp s4 h4
  simp only [estimateLogModelEvidence, if_true]
  simp only [h1]
  rw [hid1]
  simp only [h2]
  rw [hid2]
  simp only [h3]
  rw [hid3]
  simp only [h4]
  rw [hid4]

/-- Witness for C9 at a concrete input with empty root sets (both
log-probabilities are 0 and the final state is the starting state). -/
theorem c9_elbo_pipeline_witness :
    estimateLogModelEvidence g7 cEnv [] [] (some postW) 1 "ELBO" emptyAssignment 2 cState =
      some (Except.ok (cEnv.fmean (0 - 0), cState)) := by
  obtain ⟨obsS, s1, t1, h1⟩ : ∃ a b c,
      modelGetSample g7 cEnv [] 1 true emptyAssignment 2 cState = some (a, b, c) :=
    ⟨_, _, _, rfl⟩
  obtain ⟨postS, s2, t2, h2⟩ : ∃ a b c,
      modelGetSample g7 cEnv [] 1 false emptyAssignment 2 cState = some (a, b, c) :=
    ⟨_, _, _, rfl⟩
  exact c9_elbo_pipeline g7 cEnv [] [] postW 1 2 emptyAssignment cState
    (by simp) (by simp [postW]) (by simp)
    (by rintro j ⟨r, hr, _⟩ _; simp at hr)
    (by rintro j ⟨r, hr, _⟩ _; simp [postW] at hr)
    (by rintro j ⟨r, hr, _⟩ _; simp at hr)
    (fun k => rfl)
    obsS postS s1 s2 cState cState t1 t2 0 0 h1 h2 rfl rfl

/-- Counterexample for C3 as stated: node 0 is observed with the bound tensor
7, yet sampling a model containing it (`ProbabilisticModel.get_sample` always
passes `observed=False`) draws from the node's own distribution — the trace
records the draw and the returned value is the fresh draw 9, not the bound
7. -/
theorem c3_model_sampling_ignores_observation :
    (obsState 0).observed = true ∧ (obsState 0).hasObservedValue = true ∧
    (obsState 0).observedValue = some (Val.tensor 7) ∧
    (modelGetSample g7 cEnv [0] 1 false emptyAssignment 1 obsState).map
      (fun r => (r.1 0, r.2.2)) = some (some (Val.tensor 9), [0]) :=
  ⟨rfl, rfl, rfl, rfl⟩

/-- Witness for C3 at a concrete input: directly sampling the observed node
returns the bound tensor 7 and performs no draw. -/
theorem c3_observed_value_sampling_witness :
    varGetSample g7 cEnv 0 1 emptyAssignment 1 obsState =
      some (some (Val.tensor 7), resetNode g7 1 0 obsState, []) :=
  c3_observed_value_sampling.1 g7 cEnv 0 1 emptyAssignment 0 obsState (Val.tensor 7)
    rfl rfl rfl rfl rfl

/-- C10: after `unobserve`, the node reports `is_observed = False`, its
`value` property reads `_current_value` again, the fixed observed value and
the random dataset with their flags are all cleared, and `observe` followed
by `unobserve` yields exactly the same state as `unobserve` alone (the
observation state is fully restored); `_current_value` itself is untouched. -/
theorem c10_unobserve_clears :
    ∀ (s : GState) (i : Nat) (d : ObsData),
      (unobserve s i i).observed = false ∧
      rvValue (unobserve s i) i = (s i).currentValue ∧
      (unobserve s i i).currentValue = (s i).currentValue ∧
      (unobserve s i i).observedValue = none ∧
      (unobserve s i i).hasObservedValue = false ∧
      (unobserve s i i).dataset = none ∧
      (unobserve s i i).hasRandomDataset = false ∧
      unobserve (observe s i d) i = unobserve s i := by
  intro s i d
  refine ⟨by simp [unobserve], by simp [rvValue, unobserve], by simp [unobserve],
    by simp [unobserve], by simp [unobserve], by simp [unobserve], by simp [unobserve], ?_⟩
  funext j
  by_cases hj : j = i
  · subst hj
    cases d <;> simp [unobserve, observe]
  · simp [unobserve, observe, hj]

end Brancher
